import Mathlib

/-! Travelling Gopher: the evolutionary search loop of `main.go`.

A shallow embedding of `src/main.go`.

Modelling conventions.
* A Go slice is a `List`; an index expression that Go would reject at run time
  (a panic) makes the embedded function return `none`.
* A finite `float64` value is the rational number it denotes, so the Go
  comparison `<` on costs is the order of `ℚ`.  The rounded operations
  (`+`, `math.Sqrt`, `math.Pow`, the conversion `float64(int)`) are the fields
  of a `FloatOps` record that every arithmetic definition takes as parameter.
  NaN and infinities are not modelled: `totalDistance` never produces them.
* Go `int` values are `Int`; the width of `int` is platform dependent and is
  not modelled.  Slice positions and counts are `Nat`.
* The process-wide random source of `math/rand` is an explicit `RandSource`
  that is threaded through every function that draws from it.
-/

namespace TravellingGopher

/-- Holds the x and y coordinates of a location (`type location struct`). -/
structure location where
  x : Int
  y : Int
  deriving DecidableEq, Repr

/-- A visiting order with its stored cost (`type trip struct`). -/
structure trip where
  locations : List location
  totalDistance : ℚ
  deriving DecidableEq, Repr

/-- The rounded `float64` operations used by the program. -/
structure FloatOps where
  ofInt : Int → ℚ
  add : ℚ → ℚ → ℚ
  pow : ℚ → ℚ → ℚ
  sqrt : ℚ → ℚ

/-- Go slice indexing `s[i]` with an `int` index: out of range is a panic. -/
def index {α : Type} (s : List α) (i : Int) : Option α :=
  if i < 0 then none else s[i.toNat]?

/-- Return distance between two given locations (`distanceBetween`). -/
def distanceBetween (F : FloatOps) (a b : location) : ℚ :=
  F.sqrt (F.add (F.pow (F.ofInt (a.x - b.x)) (F.ofInt 2))
                (F.pow (F.ofInt (a.y - b.y)) (F.ofInt 2)))

/-- The loop `for i := 0; i < length - 1; i++ { total += ... }` of
`totalDistance`: `count` iterations remain, `i` is the loop variable. -/
def totalDistanceLoop (F : FloatOps) (locations : List location) :
    Nat → Int → ℚ → Option ℚ
  | 0, _, total => some total
  | count + 1, i, total =>
    match index locations i, index locations (i + 1) with
    | some a, some b =>
      totalDistanceLoop F locations count (i + 1) (F.add total (distanceBetween F a b))
    | _, _ => none

/-- Return distance of round trip (`totalDistance`). -/
def totalDistance (F : FloatOps) (locations : List location) : Option ℚ :=
  let length : Int := locations.length
  match totalDistanceLoop F locations (length - 1).toNat 0 0 with
  | none => none
  | some total =>
    match index locations (length - 2), index locations (length - 1) with
    | some a, some b => some (F.add total (distanceBetween F a b))
    | _, _ => none

/-- Creates a trip by combining given locations and calculating total
distance (`newTrip`). -/
def newTrip (F : FloatOps) (locations : List location) : Option trip :=
  match totalDistance F locations with
  | none => none
  | some d => some { locations := locations, totalDistance := d }

/-- Linear membership test (`integerInSlice`). -/
def integerInSlice : List Nat → Nat → Bool
  | [], _ => false
  | x :: rest, num => if x = num then true else integerInSlice rest num

/-- Returns new slice with values at indexes (`getGenerationIndexes`). -/
def getGenerationIndexes (generation : List trip) : List Nat → Option (List trip)
  | [] => some []
  | i :: rest =>
    match generation[i]? with
    | none => none
    | some t =>
      match getGenerationIndexes generation rest with
      | none => none
      | some r => some (t :: r)

/-- The inner loop of `getSmallest`: `js` are the remaining values of the loop
variable `j`, `index` is the running minimum position. -/
def scanSmallest (generation : List trip) (smallest : List Nat) :
    List Nat → Nat → Option Nat
  | [], index => some index
  | j :: js, index =>
    match generation[j]?, generation[index]? with
    | some gj, some gi =>
      if gj.totalDistance < gi.totalDistance ∧ integerInSlice smallest j = false then
        scanSmallest generation smallest js j
      else
        scanSmallest generation smallest js index
    | _, _ => none

/-- The outer loop of `getSmallest`: `rounds` iterations remain and `smallest`
holds the positions picked so far.  Each round starts at `index := 0` and scans
`j = 1 .. len(generation) - 1`. -/
def selectLoop (generation : List trip) : Nat → List Nat → Option (List Nat)
  | 0, smallest => some smallest
  | rounds + 1, smallest =>
    match scanSmallest generation smallest (List.range' 1 (generation.length - 1)) 0 with
    | none => none
    | some index => selectLoop generation rounds (smallest ++ [index])

/-- The slice `smallest` of picked positions that `getSmallest` builds. -/
def getSmallestIndexes (generation : List trip) (numTrips : Nat) : Option (List Nat) :=
  selectLoop generation numTrips []

/-- Returns the given number of smallest trips (`getSmallest`). -/
def getSmallest (generation : List trip) (numTrips : Nat) : Option (List trip) :=
  match getSmallestIndexes generation numTrips with
  | none => none
  | some smallest => getGenerationIndexes generation smallest

/-- The process-wide random source of `math/rand`, made explicit: the draw
made by the call number `pos` is read from the stream of the function called,
so every sequence of results of successive calls is some `RandSource`. -/
structure RandSource where
  float64s : Nat → ℚ
  intns : Nat → Nat
  perms : Nat → Nat → List Nat
  pos : Nat

/-- The source after one call. -/
def RandSource.advance (r : RandSource) : RandSource :=
  { r with pos := r.pos + 1 }

/-- What the library promises about its results: `rand.Float64()` lies in
`[0, 1)` and `rand.Perm(n)` is a permutation of `0 .. n-1`. -/
def RandSource.Valid (r : RandSource) : Prop :=
  (∀ t, 0 ≤ r.float64s t ∧ r.float64s t < 1) ∧
  (∀ t n, (r.perms t n).Perm (List.range n))

/-- The call `rand.Float64()`. -/
def randFloat64 (r : RandSource) : ℚ × RandSource :=
  (r.float64s r.pos, r.advance)

/-- The call `rand.Intn(n)`: a value in `[0, n)`, a panic when `n <= 0`. -/
def randIntn (r : RandSource) (n : Int) : Option (Int × RandSource) :=
  if n ≤ 0 then none else some (((r.intns r.pos : Int)) % n, r.advance)

/-- The call `rand.Perm(n)`. -/
def randPerm (r : RandSource) (n : Nat) : List Nat × RandSource :=
  (r.perms r.pos n, r.advance)

/-- Creates a random location with given maximums (`randLocation`). -/
def randLocation (xMax yMax : Int) (r : RandSource) : Option (location × RandSource) :=
  match randIntn r (xMax * 2) with
  | none => none
  | some (dx, r1) =>
    match randIntn r1 (yMax * 2) with
    | none => none
    | some (dy, r2) => some ({ x := dx + 1 - xMax, y := dy + 1 - yMax }, r2)

/-- Creates list of locations with given maximums (`randLocations`): the loop
that fills the slice front to back. -/
def randLocations : Nat → Int → Int → RandSource → Option (List location × RandSource)
  | 0, _, _, r => some ([], r)
  | numLocations + 1, xMax, yMax, r =>
    match randLocation xMax yMax r with
    | none => none
    | some (l, r1) =>
      match randLocations numLocations xMax yMax r1 with
      | none => none
      | some (rest, r2) => some (l :: rest, r2)

/-- The loop `for i, j := range order { result[j] = locations[i] }` of
`shuffleLocations`, on the pair of slices `(locations, result)`. -/
def shuffleLoop : List Nat → Nat → List location → List location →
    Option (List location × List location)
  | [], _, locations, result => some (locations, result)
  | j :: rest, i, locations, result =>
    match locations[i]? with
    | none => none
    | some a =>
      if j < result.length then shuffleLoop rest (i + 1) locations (result.set j a)
      else none

/-- The body of `shuffleLocations` after `order := rand.Perm(len(locations))`:
returns the final contents of `(locations, result)`. -/
def shuffleLocationsWith (order : List Nat) (locations : List location) :
    Option (List location × List location) :=
  shuffleLoop order 0 locations (List.replicate locations.length { x := 0, y := 0 })

/-- Returns a randomly shuffled set of locations (`shuffleLocations`). -/
def shuffleLocations (locations : List location) (r : RandSource) :
    Option (List location × RandSource) :=
  match randPerm r locations.length with
  | (order, r1) =>
    match shuffleLocationsWith order locations with
    | none => none
    | some (_, result) => some (result, r1)

/-- The loop of `newGeneration` that builds `numTrips` shuffled trips. -/
def newGenerationLoop (F : FloatOps) (locations : List location) :
    Nat → RandSource → Option (List trip × RandSource)
  | 0, r => some ([], r)
  | numTrips + 1, r =>
    match shuffleLocations locations r with
    | none => none
    | some (s, r1) =>
      match newTrip F s with
      | none => none
      | some t =>
        match newGenerationLoop F locations numTrips r1 with
        | none => none
        | some (rest, r2) => some (t :: rest, r2)

/-- Generates a new random trip and shuffles it into given number of
combinations (`newGeneration`). -/
def newGeneration (F : FloatOps) (numTrips numLocations : Nat) (xMax yMax : Int)
    (r : RandSource) : Option (List trip × RandSource) :=
  match randLocations numLocations xMax yMax r with
  | none => none
  | some (locations, r1) => newGenerationLoop F locations numTrips r1

/-- The loop of `mutate`: `count` iterations remain, `i` is the loop
variable, `length` is `len(locations)`. -/
def mutateLoop (mutationRate : ℚ) (length : Nat) :
    Nat → Nat → List location → RandSource → Option (List location × RandSource)
  | 0, _, locations, r => some (locations, r)
  | count + 1, i, locations, r =>
    match randFloat64 r with
    | (u, r1) =>
      if u < mutationRate then
        match randIntn r1 length with
        | none => none
        | some (point, r2) =>
          if point ≠ i then
            match locations[i]?, index locations point with
            | some temp, some lp =>
              mutateLoop mutationRate length count (i + 1)
                ((locations.set i lp).set point.toNat temp) r2
            | _, _ => none
          else mutateLoop mutationRate length count (i + 1) locations r2
      else mutateLoop mutationRate length count (i + 1) locations r1

/-- Mutate a trip of locations (`mutate`). -/
def mutate (locations : List location) (mutationRate : ℚ) (r : RandSource) :
    Option (List location × RandSource) :=
  mutateLoop mutationRate locations.length locations.length 0 locations r

/-- The inner loop of `makeChildren` for one parent: `count` children remain. -/
def makeChildrenOf (F : FloatOps) (parent : trip) (mutationRate : ℚ) :
    Nat → List trip → RandSource → Option (List trip × RandSource)
  | 0, children, r => some (children, r)
  | count + 1, children, r =>
    match mutate parent.locations mutationRate r with
    | none => none
    | some (child, r1) =>
      match newTrip F child with
      | none => none
      | some t => makeChildrenOf F parent mutationRate count (children ++ [t]) r1

/-- The outer loop of `makeChildren` over the parents still to be visited. -/
def makeChildrenLoop (F : FloatOps) (numChildren : Nat) (mutationRate : ℚ) :
    List trip → List trip → RandSource → Option (List trip × RandSource)
  | [], children, r => some (children, r)
  | parent :: rest, children, r =>
    match makeChildrenOf F parent mutationRate numChildren children r with
    | none => none
    | some (children1, r1) => makeChildrenLoop F numChildren mutationRate rest children1 r1

/-- Given a generation of trips, create `numChildren` mutated copies of each
(`makeChildren`). -/
def makeChildren (F : FloatOps) (generation : List trip) (numChildren : Nat)
    (mutationRate : ℚ) (r : RandSource) : Option (List trip × RandSource) :=
  makeChildrenLoop F numChildren mutationRate generation [] r

/-- One iteration of the loop of `main`, with the constants `20` and `10` as
the parameters `numElites` and `numChildren`. -/
def generationStep (F : FloatOps) (numElites numChildren : Nat) (mutationRate : ℚ)
    (generation : List trip) (r : RandSource) : Option (List trip × RandSource) :=
  match getSmallest generation numElites with
  | none => none
  | some elites =>
    match getSmallest elites 1 with
    | none => none
    | some bestList =>
      match bestList[0]? with
      | none => none
      | some best =>
        match makeChildren F elites numChildren mutationRate r with
        | none => none
        | some (children, r1) => some (children ++ [best], r1)

/-- The loop `for i := 0; i < n; i++` of `main`. -/
def evolve (F : FloatOps) (numElites numChildren : Nat) (mutationRate : ℚ) :
    Nat → List trip → RandSource → Option (List trip × RandSource)
  | 0, generation, r => some (generation, r)
  | n + 1, generation, r =>
    match generationStep F numElites numChildren mutationRate generation r with
    | none => none
    | some (next, r1) => evolve F numElites numChildren mutationRate n next r1

/-- The trip that `main` prints: `getSmallest(generation, 1)[0]`. -/
def bestTrip (generation : List trip) : Option trip :=
  match getSmallest generation 1 with
  | none => none
  | some bestList => bestList[0]?

/-- Largest natural number whose square is at most `n`. -/
def floorSqrt (n : Nat) : Nat :=
  (List.range (n + 1)).foldl (fun r k => if k * k ≤ n then k else r) 0

/-- The `float64` operations on small integers, where IEEE arithmetic is exact:
sums and squares of small integers and square roots of perfect squares. -/
def exactOps : FloatOps where
  ofInt := fun z => (z : ℚ)
  add := fun a b => a + b
  pow := fun a b => a ^ b.num.toNat
  sqrt := fun a => (floorSqrt a.num.toNat : ℚ)

/-- A random source whose draws are all the least possible ones. -/
def zeroSource : RandSource where
  float64s := fun _ => 0
  intns := fun _ => 0
  perms := fun _ n => List.range n
  pos := 0

/-- A random source whose third and fourth integer draws are `3` and `4`, so
that `randLocations 2 3 3` draws the points `(-2, -2)` and `(1, 2)`, which are
at distance `5`. -/
def exampleSource : RandSource where
  float64s := fun _ => 0
  intns := fun t => if t = 2 then 3 else if t = 3 then 4 else 0
  perms := fun _ n => List.range n
  pos := 0

/-- Three points with integer distances: `|AB| = 3`, `|BC| = 4`, `|AC| = 5`. -/
def pointA : location := { x := 0, y := 0 }

/-- See `pointA`. -/
def pointB : location := { x := 0, y := 3 }

/-- See `pointA`. -/
def pointC : location := { x := 4, y := 3 }

/-- The trip `C, B, A` with the cost `4 + 3 + 3` that `newTrip` stores. -/
def tripCBA : trip := { locations := [pointC, pointB, pointA], totalDistance := 10 }

/-- The trip `A, B, C` with the cost `3 + 4 + 4` that `newTrip` stores. -/
def tripABC : trip := { locations := [pointA, pointB, pointC], totalDistance := 11 }

/-- The trip `A, C, B` with the cost `5 + 4 + 4` that `newTrip` stores. -/
def tripACB : trip := { locations := [pointA, pointC, pointB], totalDistance := 13 }

/-- The trip `B, C, A` with the cost `4 + 5 + 5` that `newTrip` stores. -/
def tripBCA : trip := { locations := [pointB, pointC, pointA], totalDistance := 14 }

/-- The specification's reading of "the `k` lowest cost values": the first
`k` entries of the costs of the population sorted in non-decreasing order. -/
def specLowestCosts (population : List trip) (k : Nat) : List ℚ :=
  ((population.map trip.totalDistance).insertionSort (fun a b => a ≤ b)).take k

/-- The distance of the edge from place `i` to place `i + 1` of a sequence, in
the specification's words (`0` where the sequence has no such edge). -/
def specEdge (F : FloatOps) (sequence : List location) (i : Nat) : ℚ :=
  match sequence[i]?, sequence[i + 1]? with
  | some a, some b => distanceBetween F a b
  | _, _ => 0

/-- The specification's summation: the distances of the consecutive pairs
`(sequence[i], sequence[i+1])` for `i = 0 .. n-2`, accumulated from `0` in
that order, and then the last edge `(sequence[n-2], sequence[n-1])` added a
second time. -/
def specTotalDistance (F : FloatOps) (sequence : List location) : ℚ :=
  F.add (((List.range (sequence.length - 1)).map (specEdge F sequence)).foldl F.add 0)
    (specEdge F sequence (sequence.length - 2))

/-- The distance of the round trip, in the specification's words: the
distances of the consecutive pairs, accumulated from `0`, and then the closing
edge from the last point back to the first. -/
def specRoundTrip (F : FloatOps) (sequence : List location) : ℚ :=
  F.add (((List.range (sequence.length - 1)).map (specEdge F sequence)).foldl F.add 0)
    (match sequence[sequence.length - 1]?, sequence[0]? with
     | some a, some b => distanceBetween F a b
     | _, _ => 0)

/-- Cost consistency of a trip: the stored cost is what `totalDistance`
returns on the stored sequence. -/
def consistent (F : FloatOps) (t : trip) : Prop :=
  totalDistance F t.locations = some t.totalDistance

instance (F : FloatOps) (t : trip) : Decidable (consistent F t) := by
  unfold consistent; infer_instance

/-- The stored cost at a position of a generation (`0` past the end). -/
def costAt (generation : List trip) (j : Nat) : ℚ :=
  match generation[j]? with
  | some t => t.totalDistance
  | none => 0

/-- The exchange of the places `i` and `j` of a sequence, in the
specification's words (nothing happens when a place lies outside). -/
def swapAt (l : List location) (i j : Nat) : List location :=
  match l[i]?, l[j]? with
  | some a, some b => (l.set i b).set j a
  | _, _ => l

/-- The specification's reading of `mutate` at rate `1`: position `i` is
exchanged with its drawn target `targets i`, for `i = 0 .. L-1` in order. -/
def specSwapAll (targets : Nat → Nat) (locations : List location) : List location :=
  (List.range locations.length).foldl (fun l i => swapAt l i (targets i)) locations

/-- Two states of the random source that read the same streams of draws. -/
def sameStreams (r r' : RandSource) : Prop :=
  r'.float64s = r.float64s ∧ r'.intns = r.intns ∧ r'.perms = r.perms

/-- The trip `t` is a child of `parent`: `newTrip` of what `mutate` returns on
the sequence of the parent at some state of the random source `r`. -/
def childOf (F : FloatOps) (rate : ℚ) (r : RandSource) (parent t : trip) : Prop :=
  ∃ r1 r2 seq, sameStreams r r1 ∧ mutate parent.locations rate r1 = some (seq, r2) ∧
    newTrip F seq = some t

/-- The number of positions whose cost is strictly below the cost at
position 0. -/
def belowStart (generation : List trip) : Nat :=
  ((List.range generation.length).filter
    (fun j => decide (costAt generation j < costAt generation 0))).length

/-- The order in which positions are picked: by cost, the lower position
first on ties. -/
def costBefore (generation : List trip) (a b : Nat) : Prop :=
  costAt generation a < costAt generation b ∨
    (costAt generation a = costAt generation b ∧ a < b)

/-! ## Selection: the scan of one round -/

theorem integerInSlice_eq_true (s : List Nat) (n : Nat) :
    integerInSlice s n = true ↔ n ∈ s := by
  induction s with
  | nil => simp [integerInSlice]
  | cons x rest ih =>
    unfold integerInSlice
    by_cases h : x = n
    · simp [h]
    · simp only [h, if_false, ih, List.mem_cons]
      constructor
      · intro hm; exact Or.inr hm
      · rintro (hm | hm)
        · exact absurd hm.symm h
        · exact hm

theorem integerInSlice_eq_false (s : List Nat) (n : Nat) :
    integerInSlice s n = false ↔ n ∉ s := by
  rw [← integerInSlice_eq_true]; cases integerInSlice s n <;> simp

theorem costAt_of_getElem? {g : List trip} {j : Nat} {t : trip} (h : g[j]? = some t) :
    costAt g j = t.totalDistance := by
  simp [costAt, h]

/-- One round of the scan returns a position: the start position or an
unpicked later one of strictly lower cost, and it is at most as costly as the
start position and as every unpicked position scanned. -/
theorem scanSmallest_spec (g : List trip) (S : List Nat) :
    ∀ (js : List Nat) (start : Nat), start < g.length → (∀ j ∈ js, j < g.length) →
      ∃ r, scanSmallest g S js start = some r ∧ r < g.length ∧
        (r = start ∨ (r ∈ js ∧ r ∉ S ∧ costAt g r < costAt g start)) ∧
        costAt g r ≤ costAt g start ∧
        (∀ j ∈ js, j ∉ S → costAt g r ≤ costAt g j) := by
  intro js
  induction js with
  | nil =>
    intro start hs _
    exact ⟨start, rfl, hs, Or.inl rfl, le_refl _, by simp⟩
  | cons j js ih =>
    intro start hs hjs
    have hj : j < g.length := hjs j (List.mem_cons_self _ _)
    have hjs' : ∀ x ∈ js, x < g.length := fun x hx => hjs x (List.mem_cons_of_mem _ hx)
    have e1 : g[j]? = some g[j] := List.getElem?_eq_getElem hj
    have e2 : g[start]? = some g[start] := List.getElem?_eq_getElem hs
    have c1 : costAt g j = g[j].totalDistance := costAt_of_getElem? e1
    have c2 : costAt g start = g[start].totalDistance := costAt_of_getElem? e2
    unfold scanSmallest
    rw [e1, e2]
    simp only []
    by_cases hc : g[j].totalDistance < g[start].totalDistance ∧ integerInSlice S j = false
    · rw [if_pos hc]
      obtain ⟨r, hr, hlt, hor, hle, hall⟩ := ih j hj hjs'
      have hjS : j ∉ S := (integerInSlice_eq_false S j).1 hc.2
      have hjlt : costAt g j < costAt g start := by rw [c1, c2]; exact hc.1
      refine ⟨r, hr, hlt, Or.inr ?_, le_trans hle (le_of_lt hjlt), ?_⟩
      · rcases hor with h | ⟨h1, h2, h3⟩
        · subst h; exact ⟨List.mem_cons_self _ _, hjS, hjlt⟩
        · exact ⟨List.mem_cons_of_mem _ h1, h2, lt_trans h3 hjlt⟩
      · intro x hx hxS
        rcases List.mem_cons.1 hx with h | h
        · subst h; exact hle
        · exact hall x h hxS
    · rw [if_neg hc]
      obtain ⟨r, hr, hlt, hor, hle, hall⟩ := ih start hs hjs'
      refine ⟨r, hr, hlt, ?_, hle, ?_⟩
      · rcases hor with h | ⟨h1, h2, h3⟩
        · exact Or.inl h
        · exact Or.inr ⟨List.mem_cons_of_mem _ h1, h2, h3⟩
      · intro x hx hxS
        rcases List.mem_cons.1 hx with h | h
        · subst h
          have hin : integerInSlice S x = false := (integerInSlice_eq_false S x).2 hxS
          have : ¬ g[x].totalDistance < g[start].totalDistance := fun hl => hc ⟨hl, hin⟩
          rw [c1, c2] at *
          exact le_trans hle (not_lt.1 this)
        · exact hall x h hxS

/-- First-seen wins: when the positions scanned are increasing and lie after
the start position, every unpicked position before the result is strictly
more costly than the result. -/
theorem scanSmallest_first (g : List trip) (S : List Nat) :
    ∀ (js : List Nat) (start r : Nat), start < g.length → (∀ j ∈ js, j < g.length) →
      js.Pairwise (· < ·) → (∀ j ∈ js, start < j) →
      scanSmallest g S js start = some r →
      (start < r → costAt g r < costAt g start) ∧
      (∀ j ∈ js, j ∉ S → j < r → costAt g r < costAt g j) := by
  intro js
  induction js with
  | nil =>
    intro start r _ _ _ _ h
    simp only [scanSmallest, Option.some.injEq] at h
    subst h
    exact ⟨fun h => absurd h (lt_irrefl _), by simp⟩
  | cons j js ih =>
    intro start r hs hjs hpw hgt h
    have hj : j < g.length := hjs j (List.mem_cons_self _ _)
    have hjs' : ∀ x ∈ js, x < g.length := fun x hx => hjs x (List.mem_cons_of_mem _ hx)
    have e1 : g[j]? = some g[j] := List.getElem?_eq_getElem hj
    have e2 : g[start]? = some g[start] := List.getElem?_eq_getElem hs
    have c1 : costAt g j = g[j].totalDistance := costAt_of_getElem? e1
    have c2 : costAt g start = g[start].totalDistance := costAt_of_getElem? e2
    have hpw' : js.Pairwise (· < ·) := (List.pairwise_cons.1 hpw).2
    have hjlt : ∀ x ∈ js, j < x := (List.pairwise_cons.1 hpw).1
    have hsj : start < j := hgt j (List.mem_cons_self _ _)
    unfold scanSmallest at h
    rw [e1, e2] at h
    simp only [] at h
    by_cases hc : g[j].totalDistance < g[start].totalDistance ∧ integerInSlice S j = false
    · rw [if_pos hc] at h
      obtain ⟨h1, h2⟩ := ih j r hj hjs' hpw' hjlt h
      obtain ⟨r', hr', _, hor, hle, _⟩ := scanSmallest_spec g S js j hj hjs'
      rw [h] at hr'
      have hrr : r' = r := (Option.some.inj hr').symm
      subst hrr
      have hjc : costAt g j < costAt g start := by rw [c1, c2]; exact hc.1
      refine ⟨fun _ => lt_of_le_of_lt hle hjc, ?_⟩
      intro x hx hxS hxr
      rcases List.mem_cons.1 hx with hxj | hxj
      · subst hxj; exact h1 hxr
      · exact h2 x hxj hxS hxr
    · rw [if_neg hc] at h
      have hgt' : ∀ x ∈ js, start < x := fun x hx => hgt x (List.mem_cons_of_mem _ hx)
      obtain ⟨h1, h2⟩ := ih start r hs hjs' hpw' hgt' h
      refine ⟨h1, ?_⟩
      intro x hx hxS hxr
      rcases List.mem_cons.1 hx with hxj | hxj
      · subst hxj
        have hin : integerInSlice S x = false := (integerInSlice_eq_false S x).2 hxS
        have hnl : ¬ g[x].totalDistance < g[start].totalDistance := fun hl => hc ⟨hl, hin⟩
        have hsr : start < r := lt_trans hsj hxr
        have := h1 hsr
        rw [c1, c2] at *
        exact lt_of_lt_of_le this (not_lt.1 hnl)
      · exact h2 x hxj hxS hxr

/-! ## Selection: the rounds -/

/-- The positions `1 .. len(generation) - 1` scanned in every round. -/
theorem mem_scanRange {g : List trip} {j : Nat} :
    j ∈ List.range' 1 (g.length - 1) ↔ 1 ≤ j ∧ j < g.length := by
  rw [List.mem_range'_1]; omega

/-- A round on a non-empty generation always picks a position. -/
theorem scanSmallest_round (g : List trip) (hg : g ≠ []) (S : List Nat) :
    ∃ r, scanSmallest g S (List.range' 1 (g.length - 1)) 0 = some r ∧ r < g.length ∧
      (r = 0 ∨ (1 ≤ r ∧ r ∉ S ∧ costAt g r < costAt g 0)) ∧
      costAt g r ≤ costAt g 0 ∧
      (∀ j, 1 ≤ j → j < g.length → j ∉ S → costAt g r ≤ costAt g j) := by
  have hpos : 0 < g.length := List.length_pos.2 hg
  obtain ⟨r, hr, hlt, hor, hle, hall⟩ :=
    scanSmallest_spec g S (List.range' 1 (g.length - 1)) 0 hpos
      (fun j hj => (mem_scanRange.1 hj).2)
  refine ⟨r, hr, hlt, ?_, hle, fun j h1 h2 h3 => hall j (mem_scanRange.2 ⟨h1, h2⟩) h3⟩
  rcases hor with h | ⟨h1, h2, h3⟩
  · exact Or.inl h
  · exact Or.inr ⟨(mem_scanRange.1 h1).1, h2, h3⟩

/-- Induction principle for the rounds: a property of the picked positions
that every round preserves holds of the final slice, which has one more entry
per round and extends the slice the loop started from. -/
theorem selectLoop_invariant (g : List trip) (hg : g ≠ []) (I : List Nat → Prop)
    (hstep : ∀ S r, I S →
      scanSmallest g S (List.range' 1 (g.length - 1)) 0 = some r → I (S ++ [r])) :
    ∀ (rounds : Nat) (S : List Nat), I S →
      ∃ picks, selectLoop g rounds S = some picks ∧ I picks ∧
        picks.length = S.length + rounds ∧ S <+: picks := by
  intro rounds
  induction rounds with
  | zero =>
    intro S hS
    exact ⟨S, rfl, hS, rfl, List.prefix_refl S⟩
  | succ n ih =>
    intro S hS
    obtain ⟨r, hr, _⟩ := scanSmallest_round g hg S
    obtain ⟨picks, hp, hI, hlen, hpre⟩ := ih (S ++ [r]) (hstep S r hS hr)
    refine ⟨picks, ?_, hI, ?_, ?_⟩
    · unfold selectLoop; rw [hr]; exact hp
    · rw [hlen, List.length_append, List.length_singleton]; omega
    · exact List.IsPrefix.trans (List.prefix_append S [r]) hpre

/-- On an empty generation no round is possible without a panic, and zero
rounds pick nothing. -/
theorem getSmallestIndexes_zero (g : List trip) : getSmallestIndexes g 0 = some [] := rfl

/-- Every picked position is a position of the generation. -/
theorem getSmallestIndexes_lt (g : List trip) (hg : g ≠ []) (k : Nat) :
    ∃ picks, getSmallestIndexes g k = some picks ∧ picks.length = k ∧
      ∀ p ∈ picks, p < g.length := by
  obtain ⟨picks, hp, hI, hlen, _⟩ :=
    selectLoop_invariant g hg (fun S => ∀ p ∈ S, p < g.length)
      (fun S r hS hr p hp => by
        obtain ⟨r', hr', hlt, _⟩ := scanSmallest_round g hg S
        rw [hr] at hr'
        have hrr : r = r' := Option.some.inj hr'
        rcases List.mem_append.1 hp with h | h
        · exact hS p h
        · rw [List.mem_singleton] at h; rw [h, hrr]; exact hlt)
      k [] (by simp)
  exact ⟨picks, hp, by simpa using hlen, hI⟩

/-- Reading a generation at in-range positions succeeds and reads exactly the
trips stored there. -/
theorem getGenerationIndexes_spec (g : List trip) :
    ∀ (idx : List Nat), (∀ p ∈ idx, p < g.length) →
      ∃ r, getGenerationIndexes g idx = some r ∧ r.length = idx.length ∧
        (∀ t : Nat, r[t]? = (idx[t]?).bind (fun p : Nat => g[p]?)) ∧ (∀ x ∈ r, x ∈ g) := by
  intro idx
  induction idx with
  | nil => intro _; exact ⟨[], rfl, rfl, by simp, by simp⟩
  | cons i rest ih =>
    intro h
    have hi : i < g.length := h i (List.mem_cons_self _ _)
    obtain ⟨r, hr, hlen, hget, hmem⟩ := ih (fun p hp => h p (List.mem_cons_of_mem _ hp))
    have e : g[i]? = some g[i] := List.getElem?_eq_getElem hi
    refine ⟨g[i] :: r, ?_, by simp [hlen], ?_, ?_⟩
    · unfold getGenerationIndexes; rw [e, hr]
    · intro t
      cases t with
      | zero => simp [e]
      | succ t => simpa using hget t
    · intro x hx
      rcases List.mem_cons.1 hx with hx | hx
      · rw [hx]; exact List.getElem_mem hi
      · exact hmem x hx

/-- The single pick of `getSmallest(generation, 1)` is the first position of
minimal cost. -/
theorem getSmallest_one (g : List trip) (hg : g ≠ []) :
    ∃ i t, g[i]? = some t ∧ getSmallestIndexes g 1 = some [i] ∧
      getSmallest g 1 = some [t] ∧
      (∀ j, j < g.length → costAt g i ≤ costAt g j) ∧
      (∀ j, j < i → costAt g i < costAt g j) := by
  have hpos : 0 < g.length := List.length_pos.2 hg
  obtain ⟨r, hr, hlt, _, hle, hall⟩ := scanSmallest_round g hg []
  have hfirst := scanSmallest_first g [] (List.range' 1 (g.length - 1)) 0 r hpos
    (fun j hj => (mem_scanRange.1 hj).2) (List.pairwise_lt_range' 1 (g.length - 1))
    (fun j hj => (mem_scanRange.1 hj).1) hr
  have e : g[r]? = some g[r] := List.getElem?_eq_getElem hlt
  have hidx : getSmallestIndexes g 1 = some [r] := by
    simp [getSmallestIndexes, selectLoop, hr]
  refine ⟨r, g[r], e, hidx, ?_, ?_, ?_⟩
  · simp [getSmallest, hidx, getGenerationIndexes, e]
  · intro j hj
    rcases Nat.eq_zero_or_pos j with h0 | h0
    · subst h0; exact hle
    · exact hall j h0 hj (by simp)
  · intro j hj
    rcases Nat.eq_zero_or_pos j with h0 | h0
    · subst h0; exact hfirst.1 hj
    · exact hfirst.2 j (mem_scanRange.2 ⟨h0, lt_trans hj hlt⟩) (by simp) hj

/-! ## Claims about `getSmallest` -/

/-- C1, evaluated on the code: on the population `CBA (10), ABC (11),
ACB (13)` with `k = 2` the code returns the trip of cost 10 twice, so the costs
returned, `[10, 10]`, are not the two lowest costs `[10, 11]`. -/
theorem C1_getSmallest_not_lowest_costs :
    getSmallest [tripCBA, tripABC, tripACB] 2 = some [tripCBA, tripCBA] ∧
    specLowestCosts [tripCBA, tripABC, tripACB] 2 = [10, 11] ∧
    ¬ ([tripCBA, tripCBA].map trip.totalDistance).Perm
        (specLowestCosts [tripCBA, tripABC, tripACB] 2) := by
  have h2 : specLowestCosts [tripCBA, tripABC, tripACB] 2 = [10, 11] := by decide
  refine ⟨by decide, h2, ?_⟩
  rw [h2]
  intro h
  have := h.mem_iff (a := (11 : ℚ))
  simp [tripCBA] at this

/-- C2, evaluated on the code: on the population `ABC (11), ACB (13),
BCA (14)` with `k = 2` both rounds pick position 0, so the picked positions
are not pairwise distinct. -/
theorem C2_getSmallest_picks_twice :
    getSmallestIndexes [tripABC, tripACB, tripBCA] 2 = some [0, 0] ∧
    getSmallest [tripABC, tripACB, tripBCA] 2 = some [tripABC, tripABC] ∧
    ¬ ([0, 0] : List Nat).Nodup := by
  refine ⟨by decide, by decide, by decide⟩

/-- C3: for a non-empty population and `k <= len(population)`, `getSmallest`
picks `k` positions, and the trip at every picked position costs at most as
much as the trip at every position that was not picked. -/
theorem C3_picked_le_not_picked (g : List trip) (k : Nat) (hg : g ≠ [])
    (_hk : k ≤ g.length) :
    ∃ picks, getSmallestIndexes g k = some picks ∧
      ∀ p ∈ picks, ∀ q, q < g.length → q ∉ picks →
        ∃ tp tq, g[p]? = some tp ∧ g[q]? = some tq ∧
          tp.totalDistance ≤ tq.totalDistance := by
  obtain ⟨picks, hp, hI, _, _⟩ :=
    selectLoop_invariant g hg
      (fun S => ∀ p ∈ S, p < g.length ∧ costAt g p ≤ costAt g 0 ∧
        ∀ q, 1 ≤ q → q < g.length → q ∉ S → costAt g p ≤ costAt g q)
      (fun S r hS hr p hp => by
        obtain ⟨r', hr', hlt, _, hle, hall⟩ := scanSmallest_round g hg S
        rw [hr] at hr'
        have hrr : r' = r := (Option.some.inj hr').symm
        subst hrr
        rcases List.mem_append.1 hp with h | h
        · obtain ⟨h1, h2, h3⟩ := hS p h
          exact ⟨h1, h2, fun q hq1 hq2 hq3 =>
            h3 q hq1 hq2 (fun hq => hq3 (List.mem_append_left _ hq))⟩
        · rw [List.mem_singleton] at h
          subst h
          exact ⟨hlt, hle, fun q hq1 hq2 hq3 =>
            hall q hq1 hq2 (fun hq => hq3 (List.mem_append_left _ hq))⟩)
      k [] (by simp)
  refine ⟨picks, hp, ?_⟩
  intro p hpm q hq hqn
  obtain ⟨h1, h2, h3⟩ := hI p hpm
  have ep : g[p]? = some g[p] := List.getElem?_eq_getElem h1
  have eq : g[q]? = some g[q] := List.getElem?_eq_getElem hq
  refine ⟨g[p], g[q], ep, eq, ?_⟩
  rw [← costAt_of_getElem? ep, ← costAt_of_getElem? eq]
  rcases Nat.eq_zero_or_pos q with h0 | h0
  · subst h0; exact h2
  · exact h3 q h0 hq hqn

/-- C3 at the population `ABC (11), ACB (13), BCA (14)` with `k = 2`. -/
theorem C3_picked_le_not_picked_witness :
    ∃ picks, getSmallestIndexes [tripABC, tripACB, tripBCA] 2 = some picks ∧
      ∀ p ∈ picks, ∀ q, q < [tripABC, tripACB, tripBCA].length → q ∉ picks →
        ∃ tp tq, [tripABC, tripACB, tripBCA][p]? = some tp ∧
          [tripABC, tripACB, tripBCA][q]? = some tq ∧
          tp.totalDistance ≤ tq.totalDistance :=
  C3_picked_le_not_picked [tripABC, tripACB, tripBCA] 2 (by decide) (by decide)

/-- C4: on a non-empty population `getSmallest(population, 1)` returns exactly
the trip at the lowest position of minimal cost: no trip is cheaper, and every
trip before it is strictly more costly. -/
theorem C4_getSmallest_one_first_minimum (g : List trip) (hg : g ≠ []) :
    ∃ i t, g[i]? = some t ∧ getSmallest g 1 = some [t] ∧
      (∀ (j : Nat) (u : trip), g[j]? = some u → t.totalDistance ≤ u.totalDistance) ∧
      (∀ (j : Nat) (u : trip), j < i → g[j]? = some u → t.totalDistance < u.totalDistance) := by
  obtain ⟨i, t, hi, _, hs, hmin, hfirst⟩ := getSmallest_one g hg
  refine ⟨i, t, hi, hs, ?_, ?_⟩
  · intro j u hj
    have hjl : j < g.length := (List.getElem?_eq_some.1 hj).1
    rw [← costAt_of_getElem? hi, ← costAt_of_getElem? hj]
    exact hmin j hjl
  · intro j u hji hj
    rw [← costAt_of_getElem? hi, ← costAt_of_getElem? hj]
    exact hfirst j hji

/-- C4 at the population `ACB (13), ABC (11), CBA (10), CBA (10)`: the first
of the two trips of cost 10 is returned. -/
theorem C4_getSmallest_one_first_minimum_witness :
    ∃ i t, [tripACB, tripABC, tripCBA, tripCBA][i]? = some t ∧
      getSmallest [tripACB, tripABC, tripCBA, tripCBA] 1 = some [t] ∧
      (∀ (j : Nat) (u : trip), [tripACB, tripABC, tripCBA, tripCBA][j]? = some u →
        t.totalDistance ≤ u.totalDistance) ∧
      (∀ (j : Nat) (u : trip), j < i → [tripACB, tripABC, tripCBA, tripCBA][j]? = some u →
        t.totalDistance < u.totalDistance) :=
  C4_getSmallest_one_first_minimum [tripACB, tripABC, tripCBA, tripCBA] (by decide)

/-- C5: for `k <= len(population)`, `getSmallest(population, k)` returns
exactly `k` trips, and the trip returned at place `t` is the trip stored at the
position picked in round `t`, hence an element of the population. -/
theorem C5_getSmallest_length_and_members (g : List trip) (k : Nat) (hk : k ≤ g.length) :
    ∃ picks r, getSmallestIndexes g k = some picks ∧ getSmallest g k = some r ∧
      picks.length = k ∧ r.length = k ∧ (∀ x ∈ r, x ∈ g) ∧
      ∀ t, t < k → ∃ p x, picks[t]? = some p ∧ g[p]? = some x ∧ r[t]? = some x := by
  by_cases hg : g = []
  · subst hg
    have hk0 : k = 0 := by simpa using hk
    subst hk0
    exact ⟨[], [], rfl, rfl, rfl, rfl, by simp, by simp⟩
  · obtain ⟨picks, hp, hlen, hlt⟩ := getSmallestIndexes_lt g hg k
    obtain ⟨r, hr, hrlen, hget, hmem⟩ := getGenerationIndexes_spec g picks hlt
    refine ⟨picks, r, hp, ?_, hlen, by rw [hrlen, hlen], hmem, ?_⟩
    · simp [getSmallest, hp, hr]
    · intro t ht
      have htl : t < picks.length := by rw [hlen]; exact ht
      have e1 : picks[t]? = some picks[t] := List.getElem?_eq_getElem htl
      have hpl : picks[t] < g.length := hlt _ (List.getElem_mem htl)
      have e2 : g[picks[t]]? = some g[picks[t]] := List.getElem?_eq_getElem hpl
      refine ⟨picks[t], g[picks[t]], e1, e2, ?_⟩
      rw [hget t, e1]; simp [e2]

/-- C5 at the population `ACB (13), ABC (11), CBA (10)` with `k = 3`. -/
theorem C5_getSmallest_length_and_members_witness :
    ∃ picks r, getSmallestIndexes [tripACB, tripABC, tripCBA] 3 = some picks ∧
      getSmallest [tripACB, tripABC, tripCBA] 3 = some r ∧
      picks.length = 3 ∧ r.length = 3 ∧ (∀ x ∈ r, x ∈ [tripACB, tripABC, tripCBA]) ∧
      ∀ t, t < 3 → ∃ p x, picks[t]? = some p ∧
        [tripACB, tripABC, tripCBA][p]? = some x ∧ r[t]? = some x :=
  C5_getSmallest_length_and_members [tripACB, tripABC, tripCBA] 3 (by decide)

/-! ## Tour cost -/

theorem index_natCast {α : Type} (s : List α) (n : Nat) : index s (n : Int) = s[n]? := by
  simp [index]

theorem floorSqrt_nine : floorSqrt 9 = 3 := by decide

theorem floorSqrt_sixteen : floorSqrt 16 = 4 := by decide

theorem floorSqrt_twentyfive : floorSqrt 25 = 5 := by decide

/-- The loop of `totalDistance` started at `i` with `count` iterations left
accumulates the edges `i, i+1, .., i+count-1` onto `total`, provided they lie
inside the sequence. -/
theorem totalDistanceLoop_spec (F : FloatOps) (locs : List location) :
    ∀ (count i : Nat) (total : ℚ), i + count + 1 ≤ locs.length →
      totalDistanceLoop F locs count (i : Int) total =
        some (((List.range' i count).map (specEdge F locs)).foldl F.add total) := by
  intro count
  induction count with
  | zero => intro i total _; rfl
  | succ n ih =>
    intro i total h
    have h1 : i < locs.length := by omega
    have h2 : i + 1 < locs.length := by omega
    have e1 : locs[i]? = some locs[i] := List.getElem?_eq_getElem h1
    have e2 : locs[i + 1]? = some locs[i + 1] := List.getElem?_eq_getElem h2
    have hi : ((i : Int) + 1) = ((i + 1 : Nat) : Int) := by push_cast; rfl
    unfold totalDistanceLoop
    rw [hi, index_natCast, index_natCast, e1, e2]
    simp only []
    rw [ih (i + 1) _ (by omega)]
    simp [List.range', specEdge, e1, e2]

/-- On a sequence of at least two points `totalDistance` returns the
specification's summation. -/
theorem totalDistance_eq_spec (F : FloatOps) (locs : List location)
    (h : 2 ≤ locs.length) : totalDistance F locs = some (specTotalDistance F locs) := by
  have hc : ((locs.length : Int) - 1).toNat = locs.length - 1 := by omega
  have h2 : ((locs.length : Int) - 2) = ((locs.length - 2 : Nat) : Int) := by omega
  have h1 : ((locs.length : Int) - 1) = ((locs.length - 2 + 1 : Nat) : Int) := by omega
  have e1 : locs[locs.length - 2]? = some locs[locs.length - 2] :=
    List.getElem?_eq_getElem (by omega)
  have e2 : locs[locs.length - 2 + 1]? = some locs[locs.length - 2 + 1] :=
    List.getElem?_eq_getElem (by omega)
  have hloop := totalDistanceLoop_spec F locs (locs.length - 1) 0 0 (by omega)
  unfold totalDistance
  simp only []
  rw [hc]
  rw [show ((0 : Int)) = ((0 : Nat) : Int) from rfl, hloop]
  simp only []
  rw [h2, index_natCast, e1]
  rw [h1, index_natCast, e2]
  simp [specTotalDistance, specEdge, e1, e2, List.range_eq_range']

/-- The three-point trips used as examples are trips that `newTrip` builds. -/
theorem newTrip_examples :
    newTrip exactOps [pointC, pointB, pointA] = some tripCBA ∧
    newTrip exactOps [pointA, pointB, pointC] = some tripABC ∧
    newTrip exactOps [pointA, pointC, pointB] = some tripACB ∧
    newTrip exactOps [pointB, pointC, pointA] = some tripBCA := by
  refine ⟨?_, ?_, ?_, ?_⟩ <;>
  · simp [newTrip, totalDistance, totalDistanceLoop, index, distanceBetween, exactOps,
      pointA, pointB, pointC, tripCBA, tripABC, tripACB, tripBCA,
      floorSqrt_nine, floorSqrt_sixteen]
    first
      | (norm_num; done)
      | (norm_num; simp [floorSqrt_twentyfive]; norm_num)

/-- C7: on a sequence of `n >= 2` points `totalDistance` returns the sum of
the distances of the consecutive pairs for `i = 0 .. n-2` plus the distance of
the last pair `(n-2, n-1)` a second time, and `distanceBetween` is the square
root of the sum of the squared coordinate differences. -/
theorem C7_totalDistance_double_counts_last_edge (F : FloatOps) (locs : List location)
    (h : 2 ≤ locs.length) :
    totalDistance F locs = some (specTotalDistance F locs) ∧
    ∀ a b : location, distanceBetween F a b =
      F.sqrt (F.add (F.pow (F.ofInt (a.x - b.x)) (F.ofInt 2))
        (F.pow (F.ofInt (a.y - b.y)) (F.ofInt 2))) :=
  ⟨totalDistance_eq_spec F locs h, fun _ _ => rfl⟩

/-- C7 at the three points `A, B, C` with exact arithmetic. -/
theorem C7_totalDistance_double_counts_last_edge_witness :
    2 ≤ [pointA, pointB, pointC].length ∧
    totalDistance exactOps [pointA, pointB, pointC] =
      some (specTotalDistance exactOps [pointA, pointB, pointC]) :=
  ⟨by decide,
    (C7_totalDistance_double_counts_last_edge exactOps [pointA, pointB, pointC]
      (by decide)).1⟩

/-- C8, evaluated on the code: on the three points `A, B, C` (distances
`|AB| = 3`, `|BC| = 4`, `|CA| = 5`) the code returns `3 + 4 + 4 = 11`, whereas
the round trip, which closes with the edge from `C` back to `A`, is
`3 + 4 + 5 = 12`. -/
theorem C8_totalDistance_is_not_round_trip :
    totalDistance exactOps [pointA, pointB, pointC] = some 11 ∧
    specRoundTrip exactOps [pointA, pointB, pointC] = 12 ∧
    totalDistance exactOps [pointA, pointB, pointC] ≠
      some (specRoundTrip exactOps [pointA, pointB, pointC]) := by
  have h1 : totalDistance exactOps [pointA, pointB, pointC] = some 11 := by
    simp [totalDistance, totalDistanceLoop, index, distanceBetween, exactOps,
      pointA, pointB, pointC, floorSqrt_nine, floorSqrt_sixteen]
    norm_num
  have h2 : specRoundTrip exactOps [pointA, pointB, pointC] = 12 := by
    simp [specRoundTrip, specEdge, List.range, List.range.loop, distanceBetween, exactOps,
      pointA, pointB, pointC, floorSqrt_nine, floorSqrt_sixteen]
    norm_num
    simp [floorSqrt_twentyfive]
    norm_num
  refine ⟨h1, h2, ?_⟩
  rw [h1, h2]
  intro h
  have h3 : (11 : ℚ) = 12 := Option.some.inj h
  norm_num at h3

/-! ## Shuffling -/

/-- The loop of `shuffleLocations` on distinct in-range targets: it leaves
`locations` as it was, writes `locations[i + t]` at the target number `t`, and
leaves every other place of `result` as it was. -/
theorem shuffleLoop_spec :
    ∀ (rest : List Nat) (i : Nat) (locs res : List location),
      (∀ j ∈ rest, j < res.length) → i + rest.length ≤ locs.length → rest.Nodup →
      ∃ res', shuffleLoop rest i locs res = some (locs, res') ∧
        res'.length = res.length ∧
        (∀ t, t < rest.length → ∃ j, rest[t]? = some j ∧ res'[j]? = locs[i + t]?) ∧
        (∀ j, j ∉ rest → res'[j]? = res[j]?) := by
  intro rest
  induction rest with
  | nil =>
    intro i locs res _ _ _
    exact ⟨res, rfl, rfl, by simp, by simp⟩
  | cons j rest ih =>
    intro i locs res hlt hlen hnd
    have hj : j < res.length := hlt j (List.mem_cons_self _ _)
    have hi : i < locs.length := by simp only [List.length_cons] at hlen; omega
    have e : locs[i]? = some locs[i] := List.getElem?_eq_getElem hi
    have hjr : j ∉ rest := (List.nodup_cons.1 hnd).1
    obtain ⟨res', hr, hl, hw, hk⟩ := ih (i + 1) locs (res.set j locs[i])
      (fun x hx => by
        rw [List.length_set]; exact hlt x (List.mem_cons_of_mem _ hx))
      (by simp only [List.length_cons] at hlen; omega) (List.nodup_cons.1 hnd).2
    refine ⟨res', ?_, ?_, ?_, ?_⟩
    · unfold shuffleLoop
      rw [e]
      simp only []
      rw [if_pos hj]; exact hr
    · rw [hl, List.length_set]
    · intro t ht
      cases t with
      | zero =>
        refine ⟨j, by simp, ?_⟩
        rw [hk j hjr, Nat.add_zero, e]
        exact List.getElem?_set_self hj
      | succ t =>
        obtain ⟨x, hx1, hx2⟩ := hw t (by simp only [List.length_cons] at ht; omega)
        refine ⟨x, by simpa using hx1, ?_⟩
        rw [hx2]; congr 1; omega
    · intro x hx
      have hxj : j ≠ x := fun h => hx (h ▸ List.mem_cons_self _ _)
      have hxr : x ∉ rest := fun h => hx (List.mem_cons_of_mem _ h)
      rw [hk x hxr]
      exact List.getElem?_set_ne hxj

/-- With a permutation of `0 .. n-1` as `order`, the body of
`shuffleLocations` returns a rearrangement of its input and leaves the input
as it was. -/
theorem shuffleLocationsWith_spec (order : List Nat) (locs : List location)
    (h : order.Perm (List.range locs.length)) :
    ∃ result, shuffleLocationsWith order locs = some (locs, result) ∧
      result.length = locs.length ∧ result.Perm locs ∧
      ∀ i, i < locs.length → ∃ j, order[i]? = some j ∧ result[j]? = locs[i]? := by
  have hlen : order.length = locs.length := by rw [h.length_eq, List.length_range]
  have hnd : order.Nodup := h.nodup_iff.2 (List.nodup_range _)
  have hlt : ∀ j ∈ order, j < (List.replicate locs.length ({ x := 0, y := 0 } : location)).length := by
    intro j hj
    rw [List.length_replicate]
    exact List.mem_range.1 (h.mem_iff.1 hj)
  obtain ⟨result, hr, hl, hw, _⟩ :=
    shuffleLoop_spec order 0 locs _ hlt (by omega) hnd
  rw [List.length_replicate] at hl
  have hw' : ∀ i, i < locs.length → ∃ j, order[i]? = some j ∧ result[j]? = locs[i]? := by
    intro i hi
    obtain ⟨j, h1, h2⟩ := hw i (by omega)
    exact ⟨j, h1, by rw [h2, Nat.zero_add]⟩
  refine ⟨result, hr, hl, ?_, hw'⟩
  let f : Nat → location := fun j => (result[j]?).getD { x := 0, y := 0 }
  have e1 : locs = order.map f := by
    apply List.ext_getElem?
    intro i
    by_cases hi : i < locs.length
    · obtain ⟨j, h1, h2⟩ := hw' i hi
      rw [List.getElem?_map, h1]
      simp only [Option.map_some', f, h2, List.getElem?_eq_getElem hi, Option.getD_some]
    · rw [List.getElem?_eq_none (by omega), List.getElem?_eq_none (by simp; omega)]
  have e2 : result = (List.range locs.length).map f := by
    apply List.ext_getElem?
    intro i
    by_cases hi : i < locs.length
    · rw [List.getElem?_map, List.getElem?_range hi]
      simp only [Option.map_some', f, List.getElem?_eq_getElem (hl ▸ hi), Option.getD_some]
    · rw [List.getElem?_eq_none (by omega), List.getElem?_eq_none (by simp; omega)]
  rw [e1]
  conv_lhs => rw [e2]
  exact (h.map f).symm

/-- C10: for an input of any length `n` and a permutation `order` of
`0 .. n-1` drawn from the random source, `shuffleLocations` returns a new
sequence of length `n` with `result[order[i]] = input[i]` for every `i`, which
holds the same points with the same multiplicities as the input, and the input
slice holds at the end what it held at the start. -/
theorem C10_shuffleLocations_rearranges (order : List Nat) (locs : List location)
    (r : RandSource) (horder : r.perms r.pos locs.length = order)
    (h : order.Perm (List.range locs.length)) :
    ∃ result, shuffleLocationsWith order locs = some (locs, result) ∧
      shuffleLocations locs r = some (result, r.advance) ∧
      result.length = locs.length ∧ result.Perm locs ∧
      ∀ i, i < locs.length → ∃ j, order[i]? = some j ∧ result[j]? = locs[i]? := by
  obtain ⟨result, h1, h2, h3, h4⟩ := shuffleLocationsWith_spec order locs h
  refine ⟨result, h1, ?_, h2, h3, h4⟩
  simp [shuffleLocations, randPerm, horder, h1]

/-- C10 at the input `A, B, C` with the order `2, 0, 1`: the result is
`B, C, A`. -/
theorem C10_shuffleLocations_rearranges_witness :
    ([2, 0, 1] : List Nat).Perm (List.range [pointA, pointB, pointC].length) ∧
    shuffleLocationsWith [2, 0, 1] [pointA, pointB, pointC] =
      some ([pointA, pointB, pointC], [pointB, pointC, pointA]) ∧
    ∃ result, shuffleLocationsWith [2, 0, 1] [pointA, pointB, pointC] =
        some ([pointA, pointB, pointC], result) ∧
      shuffleLocations [pointA, pointB, pointC]
          { zeroSource with perms := fun _ _ => [2, 0, 1] } =
        some (result, RandSource.advance { zeroSource with perms := fun _ _ => [2, 0, 1] }) ∧
      result.length = [pointA, pointB, pointC].length ∧
      result.Perm [pointA, pointB, pointC] ∧
      ∀ i, i < [pointA, pointB, pointC].length →
        ∃ j, ([2, 0, 1] : List Nat)[i]? = some j ∧
          result[j]? = [pointA, pointB, pointC][i]? :=
  ⟨by decide, by decide,
    C10_shuffleLocations_rearranges [2, 0, 1] [pointA, pointB, pointC]
      { zeroSource with perms := fun _ _ => [2, 0, 1] } rfl (by decide)⟩

/-! ## Building trips -/

/-- A sequence on which `totalDistance` returns has at least two points. -/
theorem totalDistance_some_length (F : FloatOps) (locs : List location) (d : ℚ)
    (h : totalDistance F locs = some d) : 2 ≤ locs.length := by
  by_contra hlt
  have hc : ((locs.length : Int) - 1).toNat = 0 := by omega
  have hneg : ((locs.length : Int) - 2) < 0 := by omega
  unfold totalDistance at h
  simp only [hc, totalDistanceLoop, index, hneg, if_true] at h
  exact Option.noConfusion h

/-- What `newTrip` returns stores the given sequence with a consistent cost. -/
theorem newTrip_some (F : FloatOps) (locs : List location) (t : trip)
    (h : newTrip F locs = some t) : t.locations = locs ∧ consistent F t := by
  unfold newTrip at h
  cases hd : totalDistance F locs with
  | none => rw [hd] at h; exact Option.noConfusion h
  | some d =>
    rw [hd] at h
    have ht : t = { locations := locs, totalDistance := d } := (Option.some.inj h).symm
    subst ht
    exact ⟨rfl, hd⟩

/-- On at least two points `newTrip` returns a trip. -/
theorem newTrip_total (F : FloatOps) (locs : List location) (h : 2 ≤ locs.length) :
    ∃ t, newTrip F locs = some t := by
  unfold newTrip
  rw [totalDistance_eq_spec F locs h]
  exact ⟨_, rfl⟩

theorem consistent_length (F : FloatOps) (t : trip) (h : consistent F t) :
    2 ≤ t.locations.length :=
  totalDistance_some_length F t.locations t.totalDistance h

/-! ## Mutation and reproduction -/

/-- The draw `rand.Intn(n)` for a positive `n` returns a value in `[0, n)`. -/
theorem randIntn_pos (r : RandSource) (n : Int) (h : 0 < n) :
    ∃ v, randIntn r n = some (v, r.advance) ∧ 0 ≤ v ∧ v < n := by
  refine ⟨(r.intns r.pos : Int) % n, ?_, Int.emod_nonneg _ (by omega), Int.emod_lt_of_pos _ h⟩
  unfold randIntn
  rw [if_neg (by omega)]

/-- The loop of `mutate` never leaves the slice: it always returns, and the
result has the length of the input. -/
theorem mutateLoop_spec (rate : ℚ) (length : Nat) :
    ∀ (count i : Nat) (locs : List location) (r : RandSource),
      locs.length = length → i + count ≤ length →
      ∃ locs' r', mutateLoop rate length count i locs r = some (locs', r') ∧
        locs'.length = length := by
  intro count
  induction count with
  | zero =>
    intro i locs r hl _
    exact ⟨locs, r, rfl, hl⟩
  | succ n ih =>
    intro i locs r hl hi
    have hil : i < locs.length := by omega
    have hpos : (0 : Int) < (length : Int) := by omega
    unfold mutateLoop
    simp only [randFloat64]
    by_cases hu : r.float64s r.pos < rate
    · rw [if_pos hu]
      obtain ⟨v, hv, hv0, hvn⟩ := randIntn_pos r.advance (length : Int) hpos
      rw [hv]
      simp only []
      by_cases hp : v ≠ (i : Int)
      · rw [if_pos hp]
        have hvl : v.toNat < locs.length := by omega
        have e1 : locs[i]? = some locs[i] := List.getElem?_eq_getElem hil
        have e2 : index locs v = some locs[v.toNat] := by
          unfold index
          rw [if_neg (by omega)]
          exact List.getElem?_eq_getElem hvl
        rw [e1, e2]
        simp only []
        exact ih (i + 1) _ _ (by simp [hl]) (by omega)
      · rw [if_neg hp]
        exact ih (i + 1) locs _ hl (by omega)
    · rw [if_neg hu]
      exact ih (i + 1) locs _ hl (by omega)

/-- The function `mutate` always returns a sequence of the same length. -/
theorem mutate_spec (locs : List location) (rate : ℚ) (r : RandSource) :
    ∃ locs' r', mutate locs rate r = some (locs', r') ∧ locs'.length = locs.length :=
  mutateLoop_spec rate locs.length locs.length 0 locs r rfl (by omega)

/-- The children that the inner loop of `makeChildren` appends for one parent:
`count` trips, each consistent and as long as the parent. -/
theorem makeChildrenOf_some (F : FloatOps) (parent : trip) (rate : ℚ) :
    ∀ (count : Nat) (children : List trip) (r : RandSource)
      (result : List trip × RandSource),
      makeChildrenOf F parent rate count children r = some result →
      ∃ new, result.1 = children ++ new ∧ new.length = count ∧
        ∀ t ∈ new, consistent F t ∧ t.locations.length = parent.locations.length := by
  intro count
  induction count with
  | zero =>
    intro children r result h
    simp only [makeChildrenOf, Option.some.injEq] at h
    subst h
    exact ⟨[], by simp, rfl, by simp⟩
  | succ n ih =>
    intro children r result h
    obtain ⟨child, r1, hm, hlen⟩ := mutate_spec parent.locations rate r
    unfold makeChildrenOf at h
    rw [hm] at h
    simp only [] at h
    cases ht : newTrip F child with
    | none => rw [ht] at h; exact Option.noConfusion h
    | some t =>
      rw [ht] at h
      simp only [] at h
      obtain ⟨new, h1, h2, h3⟩ := ih (children ++ [t]) r1 result h
      obtain ⟨hloc, hcons⟩ := newTrip_some F child t ht
      refine ⟨t :: new, by rw [h1]; simp, by simp [h2], ?_⟩
      intro x hx
      rcases List.mem_cons.1 hx with hx | hx
      · subst hx; exact ⟨hcons, by rw [hloc, hlen]⟩
      · exact h3 x hx

/-- For a parent of at least two points the inner loop of `makeChildren`
returns. -/
theorem makeChildrenOf_total (F : FloatOps) (parent : trip) (rate : ℚ)
    (hp : 2 ≤ parent.locations.length) :
    ∀ (count : Nat) (children : List trip) (r : RandSource),
      ∃ result, makeChildrenOf F parent rate count children r = some result := by
  intro count
  induction count with
  | zero => intro children r; exact ⟨_, rfl⟩
  | succ n ih =>
    intro children r
    obtain ⟨child, r1, hm, hlen⟩ := mutate_spec parent.locations rate r
    obtain ⟨t, ht⟩ := newTrip_total F child (by omega)
    obtain ⟨result, hres⟩ := ih (children ++ [t]) r1
    refine ⟨result, ?_⟩
    unfold makeChildrenOf
    rw [hm]
    simp only []
    rw [ht]
    exact hres

/-- What the outer loop of `makeChildren` appends: `numChildren` trips per
parent, each of them consistent. -/
theorem makeChildrenLoop_some (F : FloatOps) (numChildren : Nat) (rate : ℚ) :
    ∀ (gen children : List trip) (r : RandSource) (result : List trip × RandSource),
      makeChildrenLoop F numChildren rate gen children r = some result →
      ∃ new, result.1 = children ++ new ∧ new.length = gen.length * numChildren ∧
        ∀ t ∈ new, consistent F t := by
  intro gen
  induction gen with
  | nil =>
    intro children r result h
    simp only [makeChildrenLoop, Option.some.injEq] at h
    subst h
    exact ⟨[], by simp, by simp, by simp⟩
  | cons parent rest ih =>
    intro children r result h
    unfold makeChildrenLoop at h
    cases hc : makeChildrenOf F parent rate numChildren children r with
    | none => rw [hc] at h; exact Option.noConfusion h
    | some mid =>
      rw [hc] at h
      simp only [] at h
      obtain ⟨new1, a1, a2, a3⟩ := makeChildrenOf_some F parent rate numChildren children r mid hc
      obtain ⟨new2, b1, b2, b3⟩ := ih mid.1 mid.2 result h
      refine ⟨new1 ++ new2, by rw [b1, a1, List.append_assoc], ?_, ?_⟩
      · rw [List.length_append, a2, b2, List.length_cons]; ring
      · intro x hx
        rcases List.mem_append.1 hx with hx | hx
        · exact (a3 x hx).1
        · exact b3 x hx

/-- When every parent has at least two points the outer loop of `makeChildren`
returns. -/
theorem makeChildrenLoop_total (F : FloatOps) (numChildren : Nat) (rate : ℚ) :
    ∀ (gen children : List trip) (r : RandSource),
      (∀ p ∈ gen, 2 ≤ p.locations.length) →
      ∃ result, makeChildrenLoop F numChildren rate gen children r = some result := by
  intro gen
  induction gen with
  | nil => intro children r _; exact ⟨_, rfl⟩
  | cons parent rest ih =>
    intro children r hp
    obtain ⟨mid, hmid⟩ := makeChildrenOf_total F parent rate
      (hp parent (List.mem_cons_self _ _)) numChildren children r
    obtain ⟨result, hres⟩ := ih mid.1 mid.2 (fun p h => hp p (List.mem_cons_of_mem _ h))
    refine ⟨result, ?_⟩
    unfold makeChildrenLoop
    rw [hmid]
    exact hres

/-- Every trip that `makeChildren` returns is consistent, and there are
`len(generation) * numChildren` of them. -/
theorem makeChildren_some (F : FloatOps) (gen : List trip) (numChildren : Nat) (rate : ℚ)
    (r : RandSource) (children : List trip) (r' : RandSource)
    (h : makeChildren F gen numChildren rate r = some (children, r')) :
    children.length = gen.length * numChildren ∧ ∀ t ∈ children, consistent F t := by
  obtain ⟨new, h1, h2, h3⟩ := makeChildrenLoop_some F numChildren rate gen [] r _ h
  simp only [List.nil_append] at h1
  subst h1
  exact ⟨h2, h3⟩

/-! ## The best trip and the generation step -/

/-- On a non-empty generation `bestTrip` returns a member that no member
undercuts. -/
theorem bestTrip_spec (g : List trip) (hg : g ≠ []) :
    ∃ b, bestTrip g = some b ∧ b ∈ g ∧ ∀ x ∈ g, b.totalDistance ≤ x.totalDistance := by
  obtain ⟨i, t, hi, _, hs, hmin, _⟩ := getSmallest_one g hg
  refine ⟨t, by simp [bestTrip, hs], List.getElem?_mem hi, ?_⟩
  intro x hx
  obtain ⟨j, hj, hjx⟩ := List.getElem_of_mem hx
  have e : g[j]? = some x := by rw [List.getElem?_eq_getElem hj, hjx]
  rw [← costAt_of_getElem? hi, ← costAt_of_getElem? e]
  exact hmin j hj

/-- With at least one round, the first trip that `getSmallest` returns is the
best trip of the generation, and every trip returned is a member of it. -/
theorem getSmallest_head (g : List trip) (hg : g ≠ []) (k : Nat) :
    ∃ elites b, getSmallest g (k + 1) = some elites ∧ elites.length = k + 1 ∧
      (∀ x ∈ elites, x ∈ g) ∧ bestTrip g = some b ∧ elites[0]? = some b := by
  obtain ⟨i, t, hi, hidx, hs, _, _⟩ := getSmallest_one g hg
  have hil : i < g.length := (List.getElem?_eq_some.1 hi).1
  obtain ⟨r, hr, _⟩ := scanSmallest_round g hg []
  have hri : r = i := by
    have : getSmallestIndexes g 1 = some [r] := by
      simp [getSmallestIndexes, selectLoop, hr]
    rw [hidx] at this
    simpa using (Option.some.inj this).symm
  subst hri
  obtain ⟨picks, hp, hI, hlen, hpre⟩ :=
    selectLoop_invariant g hg (fun S => ∀ p ∈ S, p < g.length)
      (fun S x hS hx p hp => by
        obtain ⟨x', hx', hlt, _⟩ := scanSmallest_round g hg S
        rw [hx] at hx'
        have hxx : x = x' := Option.some.inj hx'
        rcases List.mem_append.1 hp with h | h
        · exact hS p h
        · rw [List.mem_singleton] at h; rw [h, hxx]; exact hlt)
      k [r] (by simpa using hil)
  have hpicks : getSmallestIndexes g (k + 1) = some picks := by
    simp only [getSmallestIndexes, selectLoop, hr, List.nil_append]
    exact hp
  obtain ⟨elites, he, helen, hget, hmem⟩ := getGenerationIndexes_spec g picks hI
  have h0 : picks[0]? = some r := by
    obtain ⟨tl, htl⟩ := hpre
    rw [← htl]; simp
  refine ⟨elites, t, by simp [getSmallest, hpicks, he], ?_, hmem, by simp [bestTrip, hs], ?_⟩
  · rw [helen, hlen]; simp; omega
  · rw [hget 0, h0]; simpa using hi

/-- Every trip that `getGenerationIndexes` returns is stored in the
generation. -/
theorem getGenerationIndexes_mem (g : List trip) :
    ∀ (idx : List Nat) (r : List trip), getGenerationIndexes g idx = some r →
      ∀ x ∈ r, x ∈ g := by
  intro idx
  induction idx with
  | nil =>
    intro r h
    simp only [getGenerationIndexes, Option.some.injEq] at h
    subst h; simp
  | cons i rest ih =>
    intro r h
    unfold getGenerationIndexes at h
    cases hi : g[i]? with
    | none => rw [hi] at h; exact Option.noConfusion h
    | some t =>
      rw [hi] at h
      simp only [] at h
      cases hr : getGenerationIndexes g rest with
      | none => rw [hr] at h; exact Option.noConfusion h
      | some r0 =>
        rw [hr] at h
        simp only [Option.some.injEq] at h
        subst h
        intro x hx
        rcases List.mem_cons.1 hx with hx | hx
        · rw [hx]; exact List.getElem?_mem hi
        · exact ih r0 hr x hx

/-- Every trip that `getSmallest` returns is a member of the generation. -/
theorem getSmallest_mem (g : List trip) (k : Nat) (r : List trip)
    (h : getSmallest g k = some r) : ∀ x ∈ r, x ∈ g := by
  unfold getSmallest at h
  cases hp : getSmallestIndexes g k with
  | none => rw [hp] at h; exact Option.noConfusion h
  | some picks =>
    rw [hp] at h
    exact getGenerationIndexes_mem g picks r h

/-- Every trip that the loop of `newGeneration` builds is consistent. -/
theorem newGenerationLoop_some (F : FloatOps) (locs : List location) :
    ∀ (numTrips : Nat) (r : RandSource) (gen : List trip) (r' : RandSource),
      newGenerationLoop F locs numTrips r = some (gen, r') →
      gen.length = numTrips ∧ ∀ t ∈ gen, consistent F t := by
  intro numTrips
  induction numTrips with
  | zero =>
    intro r gen r' h
    simp only [newGenerationLoop, Option.some.injEq, Prod.mk.injEq] at h
    obtain ⟨h1, _⟩ := h
    subst h1; simp
  | succ n ih =>
    intro r gen r' h
    unfold newGenerationLoop at h
    cases hs : shuffleLocations locs r with
    | none => rw [hs] at h; exact Option.noConfusion h
    | some p =>
      obtain ⟨sh, r1⟩ := p
      rw [hs] at h
      simp only [] at h
      cases ht : newTrip F sh with
      | none => rw [ht] at h; exact Option.noConfusion h
      | some t =>
        rw [ht] at h
        simp only [] at h
        cases hl : newGenerationLoop F locs n r1 with
        | none => rw [hl] at h; exact Option.noConfusion h
        | some q =>
          obtain ⟨rest, r2⟩ := q
          rw [hl] at h
          simp only [Option.some.injEq, Prod.mk.injEq] at h
          obtain ⟨h1, _⟩ := h
          subst h1
          obtain ⟨a1, a2⟩ := ih r1 rest r2 hl
          refine ⟨by simp [a1], ?_⟩
          intro x hx
          rcases List.mem_cons.1 hx with hx | hx
          · subst hx; exact (newTrip_some F sh x ht).2
          · exact a2 x hx

/-- Every trip in the result of `newGeneration` is consistent. -/
theorem newGeneration_some (F : FloatOps) (numTrips numLocations : Nat) (xMax yMax : Int)
    (r : RandSource) (gen : List trip) (r' : RandSource)
    (h : newGeneration F numTrips numLocations xMax yMax r = some (gen, r')) :
    gen.length = numTrips ∧ ∀ t ∈ gen, consistent F t := by
  unfold newGeneration at h
  cases hl : randLocations numLocations xMax yMax r with
  | none => rw [hl] at h; exact Option.noConfusion h
  | some p =>
    obtain ⟨locs, r1⟩ := p
    rw [hl] at h
    exact newGenerationLoop_some F locs numTrips r1 gen r' h

/-- A generation step that returns has gone through its four stages. -/
theorem generationStep_stages (F : FloatOps) (numElites numChildren : Nat) (rate : ℚ)
    (g : List trip) (r : RandSource) (next : List trip) (r' : RandSource)
    (h : generationStep F numElites numChildren rate g r = some (next, r')) :
    ∃ elites children best, getSmallest g numElites = some elites ∧
      bestTrip elites = some best ∧
      makeChildren F elites numChildren rate r = some (children, r') ∧
      next = children ++ [best] := by
  unfold generationStep at h
  cases he : getSmallest g numElites with
  | none => rw [he] at h; exact Option.noConfusion h
  | some elites =>
    rw [he] at h
    simp only [] at h
    cases hb : getSmallest elites 1 with
    | none => rw [hb] at h; exact Option.noConfusion h
    | some bestList =>
      rw [hb] at h
      simp only [] at h
      cases h0 : bestList[0]? with
      | none => rw [h0] at h; exact Option.noConfusion h
      | some best =>
        rw [h0] at h
        simp only [] at h
        cases hc : makeChildren F elites numChildren rate r with
        | none => rw [hc] at h; exact Option.noConfusion h
        | some p =>
          obtain ⟨children, r1⟩ := p
          rw [hc] at h
          simp only [Option.some.injEq, Prod.mk.injEq] at h
          obtain ⟨h1, h2⟩ := h
          subst h1; subst h2
          exact ⟨elites, children, best, rfl, by simp [bestTrip, hb, h0], hc, rfl⟩

/-- The trips of `bestTrip`'s result are members of the generation. -/
theorem bestTrip_mem (g : List trip) (b : trip) (h : bestTrip g = some b) : b ∈ g := by
  unfold bestTrip at h
  cases hs : getSmallest g 1 with
  | none => rw [hs] at h; exact Option.noConfusion h
  | some l =>
    rw [hs] at h
    exact getSmallest_mem g 1 l hs b (List.getElem?_mem h)

/-- Every trip of the generation after a step is a consistent child or a
member of the generation before the step. -/
theorem generationStep_members (F : FloatOps) (numElites numChildren : Nat) (rate : ℚ)
    (g : List trip) (r : RandSource) (next : List trip) (r' : RandSource)
    (h : generationStep F numElites numChildren rate g r = some (next, r')) :
    ∀ t ∈ next, consistent F t ∨ t ∈ g := by
  obtain ⟨elites, children, best, he, hb, hc, hn⟩ :=
    generationStep_stages F numElites numChildren rate g r next r' h
  subst hn
  intro t ht
  rcases List.mem_append.1 ht with ht | ht
  · exact Or.inl ((makeChildren_some F elites numChildren rate r children r' hc).2 t ht)
  · rw [List.mem_singleton] at ht
    subst ht
    exact Or.inr (getSmallest_mem g numElites elites he t (bestTrip_mem elites t hb))

/-- Elitism: after a step with at least one elite on a non-empty generation
the best cost is at most the best cost before the step. -/
theorem generationStep_best (F : FloatOps) (numElites numChildren : Nat) (rate : ℚ)
    (g : List trip) (r : RandSource) (next : List trip) (r' : RandSource)
    (hg : g ≠ []) (hE : 1 ≤ numElites)
    (h : generationStep F numElites numChildren rate g r = some (next, r')) :
    next ≠ [] ∧ ∃ b b', bestTrip g = some b ∧ bestTrip next = some b' ∧
      b'.totalDistance ≤ b.totalDistance := by
  obtain ⟨elites, children, best, he, hb, hc, hn⟩ :=
    generationStep_stages F numElites numChildren rate g r next r' h
  obtain ⟨k, hk⟩ : ∃ k, numElites = k + 1 := ⟨numElites - 1, by omega⟩
  subst hk
  obtain ⟨elites', b, he', _, _, hbg, h0⟩ := getSmallest_head g hg k
  rw [he] at he'
  have hee : elites' = elites := (Option.some.inj he').symm
  subst hee
  have hbm : b ∈ elites' := List.getElem?_mem h0
  have hne : elites' ≠ [] := List.ne_nil_of_mem hbm
  obtain ⟨best', hb', _, hle⟩ := bestTrip_spec elites' hne
  rw [hb] at hb'
  have hbb : best' = best := (Option.some.inj hb').symm
  subst hbb
  have hnn : next ≠ [] := by rw [hn]; simp
  obtain ⟨b', hb2, _, hle2⟩ := bestTrip_spec next hnn
  refine ⟨hnn, b, b', hbg, hb2, ?_⟩
  exact le_trans (hle2 best' (by rw [hn]; simp)) (hle b hbm)

/-- A step with at least one elite on a non-empty generation whose trips have
at least two points returns. -/
theorem generationStep_total (F : FloatOps) (numElites numChildren : Nat) (rate : ℚ)
    (g : List trip) (r : RandSource) (hg : g ≠ []) (hE : 1 ≤ numElites)
    (hlen : ∀ t ∈ g, 2 ≤ t.locations.length) :
    ∃ next r', generationStep F numElites numChildren rate g r = some (next, r') := by
  obtain ⟨k, hk⟩ : ∃ k, numElites = k + 1 := ⟨numElites - 1, by omega⟩
  subst hk
  obtain ⟨elites, b, he, _, hmem, _, h0⟩ := getSmallest_head g hg k
  have hne : elites ≠ [] := List.ne_nil_of_mem (List.getElem?_mem h0)
  obtain ⟨i, t, _, _, hs, _, _⟩ := getSmallest_one elites hne
  obtain ⟨res, hres⟩ := makeChildrenLoop_total F numChildren rate elites [] r
    (fun p hp => hlen p (hmem p hp))
  refine ⟨res.1 ++ [t], res.2, ?_⟩
  unfold generationStep
  rw [he]
  simp only []
  rw [hs]
  simp only [List.getElem?_cons_zero]
  unfold makeChildren
  rw [hres]

/-! ## The training loop -/

/-- The best cost after any number of steps is at most the best cost at the
start. -/
theorem evolve_best (F : FloatOps) (numElites numChildren : Nat) (rate : ℚ)
    (hE : 1 ≤ numElites) :
    ∀ (n : Nat) (g : List trip) (r : RandSource) (final : List trip) (r' : RandSource),
      g ≠ [] → evolve F numElites numChildren rate n g r = some (final, r') →
      final ≠ [] ∧ ∃ b0 bI, bestTrip g = some b0 ∧ bestTrip final = some bI ∧
        bI.totalDistance ≤ b0.totalDistance := by
  intro n
  induction n with
  | zero =>
    intro g r final r' hg h
    simp only [evolve, Option.some.injEq, Prod.mk.injEq] at h
    obtain ⟨h1, _⟩ := h
    subst h1
    obtain ⟨b, hb, _, _⟩ := bestTrip_spec g hg
    exact ⟨hg, b, b, hb, hb, le_refl _⟩
  | succ n ih =>
    intro g r final r' hg h
    unfold evolve at h
    cases hs : generationStep F numElites numChildren rate g r with
    | none => rw [hs] at h; exact Option.noConfusion h
    | some p =>
      obtain ⟨next, r1⟩ := p
      rw [hs] at h
      simp only [] at h
      obtain ⟨hnn, b, b', hb, hb', hle⟩ :=
        generationStep_best F numElites numChildren rate g r next r1 hg hE hs
      obtain ⟨hfin, c, bI, hc, hbI, hle2⟩ := ih next r1 final r' hnn h
      rw [hb'] at hc
      have hcb : b' = c := Option.some.inj hc
      subst hcb
      exact ⟨hfin, b, bI, hb, hbI, le_trans hle2 hle⟩

/-- The training loop returns when it starts from a non-empty generation of
trips of at least two points. -/
theorem evolve_total (F : FloatOps) (numElites numChildren : Nat) (rate : ℚ)
    (hE : 1 ≤ numElites) :
    ∀ (n : Nat) (g : List trip) (r : RandSource),
      g ≠ [] → (∀ t ∈ g, 2 ≤ t.locations.length) →
      ∃ final r', evolve F numElites numChildren rate n g r = some (final, r') := by
  intro n
  induction n with
  | zero => intro g r _ _; exact ⟨g, r, rfl⟩
  | succ n ih =>
    intro g r hg hlen
    obtain ⟨next, r1, hs⟩ := generationStep_total F numElites numChildren rate g r hg hE hlen
    have hnn := (generationStep_best F numElites numChildren rate g r next r1 hg hE hs).1
    have hlen' : ∀ t ∈ next, 2 ≤ t.locations.length := by
      intro t ht
      rcases generationStep_members F numElites numChildren rate g r next r1 hs t ht with h | h
      · exact consistent_length F t h
      · exact hlen t h
    obtain ⟨final, r', hf⟩ := ih next r1 hnn hlen'
    refine ⟨final, r', ?_⟩
    unfold evolve
    rw [hs]
    exact hf

/-- The training loop keeps every trip consistent. -/
theorem evolve_consistent (F : FloatOps) (numElites numChildren : Nat) (rate : ℚ) :
    ∀ (n : Nat) (g : List trip) (r : RandSource) (final : List trip) (r' : RandSource),
      (∀ t ∈ g, consistent F t) →
      evolve F numElites numChildren rate n g r = some (final, r') →
      ∀ t ∈ final, consistent F t := by
  intro n
  induction n with
  | zero =>
    intro g r final r' hc h
    simp only [evolve, Option.some.injEq, Prod.mk.injEq] at h
    obtain ⟨h1, _⟩ := h
    subst h1
    exact hc
  | succ n ih =>
    intro g r final r' hc h
    unfold evolve at h
    cases hs : generationStep F numElites numChildren rate g r with
    | none => rw [hs] at h; exact Option.noConfusion h
    | some p =>
      obtain ⟨next, r1⟩ := p
      rw [hs] at h
      simp only [] at h
      refine ih next r1 final r' ?_ h
      intro t ht
      rcases generationStep_members F numElites numChildren rate g r next r1 hs t ht with h | h
      · exact h
      · exact hc t h

/-- The example trips are consistent for exact arithmetic. -/
theorem examples_consistent :
    consistent exactOps tripCBA ∧ consistent exactOps tripABC ∧
    consistent exactOps tripACB ∧ consistent exactOps tripBCA :=
  ⟨(newTrip_some exactOps _ _ newTrip_examples.1).2,
   (newTrip_some exactOps _ _ newTrip_examples.2.1).2,
   (newTrip_some exactOps _ _ newTrip_examples.2.2.1).2,
   (newTrip_some exactOps _ _ newTrip_examples.2.2.2).2⟩

/-- C6: from a non-empty initial population, with at least one elite, for
every number of children, mutation rate, number of steps and random source,
the best cost of the population after the steps is at most the best cost of
the initial population; and the steps do produce a population when every trip
has at least two points. -/
theorem C6_best_never_exceeds_initial_best (F : FloatOps) (numElites numChildren : Nat)
    (rate : ℚ) (n : Nat) (g : List trip) (r : RandSource)
    (hg : g ≠ []) (hE : 1 ≤ numElites) :
    (∀ final r', evolve F numElites numChildren rate n g r = some (final, r') →
      ∃ b0 bI, bestTrip g = some b0 ∧ bestTrip final = some bI ∧
        bI.totalDistance ≤ b0.totalDistance) ∧
    ((∀ t ∈ g, 2 ≤ t.locations.length) →
      ∃ final r', evolve F numElites numChildren rate n g r = some (final, r')) :=
  ⟨fun final r' h => (evolve_best F numElites numChildren rate hE n g r final r' hg h).2,
   fun hlen => evolve_total F numElites numChildren rate hE n g r hg hlen⟩

/-- C6 at the population `ACB (13), ABC (11)` with one elite, two children,
mutation rate `1/10` and three steps. -/
theorem C6_best_never_exceeds_initial_best_witness :
    ∃ final r' b0 bI,
      evolve exactOps 1 2 (1 / 10) 3 [tripACB, tripABC] zeroSource = some (final, r') ∧
      bestTrip [tripACB, tripABC] = some b0 ∧ bestTrip final = some bI ∧
      bI.totalDistance ≤ b0.totalDistance :=
  have hw := C6_best_never_exceeds_initial_best exactOps 1 2 (1 / 10) 3
    [tripACB, tripABC] zeroSource (by decide) (by decide)
  have hlen : ∀ t ∈ [tripACB, tripABC], 2 ≤ t.locations.length := by decide
  match hw.2 hlen with
  | ⟨final, r', h⟩ =>
    match hw.1 final r' h with
    | ⟨b0, bI, h1, h2, h3⟩ => ⟨final, r', b0, bI, h, h1, h2, h3⟩

/-- C9: cost consistency is an invariant of every trip the program builds:
of the trip returned by `newTrip`, of every trip in the results of
`newGeneration` and of `makeChildren`, of every trip that `getSmallest` picks
from consistent trips, and so of every population that the training loop
reaches from consistent trips; and from a non-empty population of consistent
trips, with at least one elite, the loop does reach a population. -/
theorem C9_cost_consistency_invariant (F : FloatOps) :
    (∀ locs t, newTrip F locs = some t → consistent F t) ∧
    (∀ numTrips numLocations xMax yMax r gen r',
      newGeneration F numTrips numLocations xMax yMax r = some (gen, r') →
      ∀ t ∈ gen, consistent F t) ∧
    (∀ gen numChildren rate r children r',
      makeChildren F gen numChildren rate r = some (children, r') →
      ∀ t ∈ children, consistent F t) ∧
    (∀ gen k picked, (∀ t ∈ gen, consistent F t) → getSmallest gen k = some picked →
      ∀ t ∈ picked, consistent F t) ∧
    (∀ numElites numChildren rate n gen r final r', (∀ t ∈ gen, consistent F t) →
      evolve F numElites numChildren rate n gen r = some (final, r') →
      ∀ t ∈ final, consistent F t) ∧
    (∀ numElites numChildren rate n gen r, gen ≠ [] → 1 ≤ numElites →
      (∀ t ∈ gen, consistent F t) →
      ∃ final r', evolve F numElites numChildren rate n gen r = some (final, r')) := by
  refine ⟨fun locs t h => (newTrip_some F locs t h).2, ?_, ?_, ?_, ?_, ?_⟩
  · intro numTrips numLocations xMax yMax r gen r' h
    exact (newGeneration_some F numTrips numLocations xMax yMax r gen r' h).2
  · intro gen numChildren rate r children r' h
    exact (makeChildren_some F gen numChildren rate r children r' h).2
  · intro gen k picked hc h t ht
    exact hc t (getSmallest_mem gen k picked h t ht)
  · intro numElites numChildren rate n gen r final r' hc h
    exact evolve_consistent F numElites numChildren rate n gen r final r' hc h
  · intro numElites numChildren rate n gen r hg hE hc
    exact evolve_total F numElites numChildren rate hE n gen r hg
      (fun t ht => consistent_length F t (hc t ht))

/-- The generation that `newGeneration` builds from `exampleSource`: two trips
over the points `(-2, -2)` and `(1, 2)`, each of cost `5 + 5`. -/
theorem newGeneration_example :
    (newGeneration exactOps 2 2 3 3 exampleSource).map Prod.fst =
      some [{ locations := [{ x := -2, y := -2 }, { x := 1, y := 2 }], totalDistance := 10 },
            { locations := [{ x := -2, y := -2 }, { x := 1, y := 2 }], totalDistance := 10 }] := by
  simp [newGeneration, randLocations, randLocation, randIntn, exampleSource,
    RandSource.advance, newGenerationLoop, shuffleLocations, randPerm,
    shuffleLocationsWith, shuffleLoop, List.range, List.range.loop, newTrip,
    totalDistance, totalDistanceLoop, index, distanceBetween, exactOps]
  norm_num
  simp [floorSqrt_twentyfive]
  norm_num

/-- C9 at concrete inputs: the trip that `newTrip` builds from `A, B, C`, the
generation that `newGeneration` builds from `exampleSource`, and the
population after three steps from `ACB, ABC`. -/
theorem C9_cost_consistency_invariant_witness :
    (∃ t, newTrip exactOps [pointA, pointB, pointC] = some t ∧ consistent exactOps t) ∧
    (∃ gen r', newGeneration exactOps 2 2 3 3 exampleSource = some (gen, r') ∧
      gen.length = 2 ∧ ∀ t ∈ gen, consistent exactOps t) ∧
    (∃ final r',
      evolve exactOps 1 2 (1 / 10) 3 [tripACB, tripABC] zeroSource = some (final, r') ∧
      ∀ t ∈ final, consistent exactOps t) := by
  have hw := C9_cost_consistency_invariant exactOps
  have hcons : ∀ t ∈ [tripACB, tripABC], consistent exactOps t := by
    intro t ht
    rcases List.mem_cons.1 ht with h | h
    · rw [h]; exact examples_consistent.2.2.1
    · rw [List.mem_singleton] at h; rw [h]; exact examples_consistent.2.1
  refine ⟨⟨tripABC, newTrip_examples.2.1, hw.1 _ _ newTrip_examples.2.1⟩, ?_, ?_⟩
  · cases hn : newGeneration exactOps 2 2 3 3 exampleSource with
    | none =>
      have h := newGeneration_example
      rw [hn] at h
      exact Option.noConfusion h
    | some p =>
      obtain ⟨gen, r'⟩ := p
      exact ⟨gen, r', rfl, (newGeneration_some exactOps 2 2 3 3 exampleSource gen r' hn).1,
        hw.2.1 2 2 3 3 exampleSource gen r' hn⟩
  · obtain ⟨final, r', h⟩ :=
      hw.2.2.2.2.2 1 2 (1 / 10) 3 [tripACB, tripABC] zeroSource (by decide) (by decide) hcons
    exact ⟨final, r', h, hw.2.2.2.2.1 1 2 (1 / 10) 3 [tripACB, tripABC] zeroSource final r' hcons h⟩

/-! ## Requests for more trips than exist -/

/-- On an empty generation every round picks position 0. -/
theorem selectLoop_nil : ∀ (k : Nat) (S : List Nat),
    selectLoop [] k S = some (S ++ List.replicate k 0) := by
  intro k
  induction k with
  | zero => intro S; simp [selectLoop]
  | succ n ih =>
    intro S
    simp only [selectLoop, List.length_nil, List.range', scanSmallest]
    rw [ih]
    simp [List.replicate_succ]

/-- On an empty generation a request for at least one trip fails. -/
theorem getSmallest_nil (k : Nat) (hk : 1 ≤ k) : getSmallest [] k = none := by
  obtain ⟨n, hn⟩ : ∃ n, k = n + 1 := ⟨k - 1, by omega⟩
  subst hn
  simp [getSmallest, getSmallestIndexes, selectLoop_nil, List.replicate_succ,
    getGenerationIndexes]

/-- On a non-empty generation every request returns as many trips as asked
for, all of them members of the generation. -/
theorem getSmallest_total (g : List trip) (hg : g ≠ []) (k : Nat) :
    ∃ r, getSmallest g k = some r ∧ r.length = k ∧ ∀ x ∈ r, x ∈ g := by
  obtain ⟨picks, hp, hlen, hlt⟩ := getSmallestIndexes_lt g hg k
  obtain ⟨r, hr, hrlen, _, hmem⟩ := getGenerationIndexes_spec g picks hlt
  exact ⟨r, by simp [getSmallest, hp, hr], by rw [hrlen, hlen], hmem⟩

/-- C15, refuted as stated: the population `[ABC]` has one trip, and the
request for two trips does not fail but returns the trip `ABC` twice. -/
theorem C15_getSmallest_beyond_length_returns :
    [tripABC].length < 2 ∧ getSmallest [tripABC] 2 = some [tripABC, tripABC] := by
  refine ⟨by decide, by decide⟩

/-- C15 as amended: a request for more trips than the population holds fails
exactly when the population is empty; on a non-empty population it returns
`k` trips, all members of the population (so some position is repeated). -/
theorem C15_getSmallest_beyond_length (g : List trip) (k : Nat) (hk : g.length < k) :
    (g = [] → getSmallest g k = none) ∧
    (g ≠ [] → ∃ r, getSmallest g k = some r ∧ r.length = k ∧ ∀ x ∈ r, x ∈ g) := by
  refine ⟨?_, fun hg => getSmallest_total g hg k⟩
  intro hg
  subst hg
  exact getSmallest_nil k (by omega)

/-- C15 as amended, at the population `[ABC, ACB]` with `k = 3`. -/
theorem C15_getSmallest_beyond_length_witness :
    [tripABC, tripACB].length < 3 ∧
    ∃ r, getSmallest [tripABC, tripACB] 3 = some r ∧ r.length = 3 ∧
      ∀ x ∈ r, x ∈ [tripABC, tripACB] :=
  ⟨by decide,
    (C15_getSmallest_beyond_length [tripABC, tripACB] 3 (by decide)).2 (by decide)⟩

/-! ## Degenerate point sets -/

/-- On fewer than two points `totalDistance` fails at `locations[length - 2]`. -/
theorem totalDistance_short (F : FloatOps) (locs : List location) (h : locs.length < 2) :
    index locs ((locs.length : Int) - 2) = none ∧ totalDistance F locs = none := by
  have hneg : ((locs.length : Int) - 2) < 0 := by omega
  have hidx : index locs ((locs.length : Int) - 2) = none := by
    unfold index; rw [if_pos hneg]
  refine ⟨hidx, ?_⟩
  cases hd : totalDistance F locs with
  | none => rfl
  | some d =>
    have := totalDistance_some_length F locs d hd
    omega

/-- The loop of `shuffleLocations` keeps the length of `result`. -/
theorem shuffleLoop_length :
    ∀ (rest : List Nat) (i : Nat) (locs res : List location)
      (out : List location × List location),
      shuffleLoop rest i locs res = some out → out.2.length = res.length := by
  intro rest
  induction rest with
  | nil =>
    intro i locs res out h
    simp only [shuffleLoop, Option.some.injEq] at h
    subst h; rfl
  | cons j rest ih =>
    intro i locs res out h
    unfold shuffleLoop at h
    cases ha : locs[i]? with
    | none => rw [ha] at h; exact Option.noConfusion h
    | some a =>
      rw [ha] at h
      simp only [] at h
      by_cases hj : j < res.length
      · rw [if_pos hj] at h
        rw [ih (i + 1) locs _ out h, List.length_set]
      · rw [if_neg hj] at h; exact Option.noConfusion h

/-- What `shuffleLocations` returns is as long as its input. -/
theorem shuffleLocations_length (locs : List location) (r : RandSource)
    (res : List location) (r' : RandSource)
    (h : shuffleLocations locs r = some (res, r')) : res.length = locs.length := by
  unfold shuffleLocations at h
  simp only [randPerm] at h
  cases hs : shuffleLocationsWith (r.perms r.pos locs.length) locs with
  | none => rw [hs] at h; exact Option.noConfusion h
  | some out =>
    rw [hs] at h
    simp only [Option.some.injEq, Prod.mk.injEq] at h
    obtain ⟨h1, _⟩ := h
    subst h1
    have := shuffleLoop_length _ 0 locs _ out hs
    rw [this, List.length_replicate]

/-- The slice that `randLocations` returns has `numLocations` entries. -/
theorem randLocations_length :
    ∀ (numLocations : Nat) (xMax yMax : Int) (r : RandSource)
      (locs : List location) (r' : RandSource),
      randLocations numLocations xMax yMax r = some (locs, r') →
      locs.length = numLocations := by
  intro numLocations
  induction numLocations with
  | zero =>
    intro xMax yMax r locs r' h
    simp only [randLocations, Option.some.injEq, Prod.mk.injEq] at h
    obtain ⟨h1, _⟩ := h
    subst h1; rfl
  | succ n ih =>
    intro xMax yMax r locs r' h
    unfold randLocations at h
    cases hl : randLocation xMax yMax r with
    | none => rw [hl] at h; exact Option.noConfusion h
    | some p =>
      obtain ⟨l, r1⟩ := p
      rw [hl] at h
      simp only [] at h
      cases hr : randLocations n xMax yMax r1 with
      | none => rw [hr] at h; exact Option.noConfusion h
      | some q =>
        obtain ⟨rest, r2⟩ := q
        rw [hr] at h
        simp only [Option.some.injEq, Prod.mk.injEq] at h
        obtain ⟨h1, _⟩ := h
        subst h1
        simp [ih xMax yMax r1 rest r2 hr]

/-- Over fewer than two points `newGeneration` builds no trip: with at least
one trip requested it fails. -/
theorem newGeneration_short (F : FloatOps) (numTrips numLocations : Nat) (xMax yMax : Int)
    (r : RandSource) (hn : numLocations < 2) (ht : 1 ≤ numTrips) :
    newGeneration F numTrips numLocations xMax yMax r = none := by
  obtain ⟨k, hk⟩ : ∃ k, numTrips = k + 1 := ⟨numTrips - 1, by omega⟩
  subst hk
  unfold newGeneration
  cases hl : randLocations numLocations xMax yMax r with
  | none => rfl
  | some p =>
    obtain ⟨locs, r1⟩ := p
    simp only []
    have hlen := randLocations_length numLocations xMax yMax r locs r1 hl
    unfold newGenerationLoop
    cases hs : shuffleLocations locs r1 with
    | none => rfl
    | some q =>
      obtain ⟨sh, r2⟩ := q
      simp only []
      have hsl := shuffleLocations_length locs r1 sh r2 hs
      have hnone : newTrip F sh = none := by
        unfold newTrip
        rw [(totalDistance_short F sh (by omega)).2]
      rw [hnone]

/-- C19: on a sequence of at least two points every index that
`totalDistance` reads lies inside the sequence, and `totalDistance` and
`newTrip` return a value; on fewer than two points `totalDistance` fails at
`locations[length - 2]`, so `newTrip` fails, and so does `newGeneration` with
at least one trip over fewer than two points. -/
theorem C19_totalDistance_needs_two_points (F : FloatOps) :
    (∀ locs : List location, 2 ≤ locs.length →
      (∀ i : Nat, i + 1 < locs.length →
        (index locs (i : Int)).isSome ∧ (index locs ((i : Int) + 1)).isSome) ∧
      (index locs ((locs.length : Int) - 2)).isSome ∧
      (index locs ((locs.length : Int) - 1)).isSome ∧
      (∃ d, totalDistance F locs = some d) ∧ ∃ t, newTrip F locs = some t) ∧
    (∀ locs : List location, locs.length < 2 →
      index locs ((locs.length : Int) - 2) = none ∧ totalDistance F locs = none ∧
      newTrip F locs = none) ∧
    (∀ (numTrips numLocations : Nat) (xMax yMax : Int) (r : RandSource),
      numLocations < 2 → 1 ≤ numTrips →
      newGeneration F numTrips numLocations xMax yMax r = none) := by
  refine ⟨?_, ?_, ?_⟩
  · intro locs h
    refine ⟨?_, ?_, ?_, ⟨_, totalDistance_eq_spec F locs h⟩, newTrip_total F locs h⟩
    · intro i hi
      have h1 : ((i : Int) + 1) = ((i + 1 : Nat) : Int) := by push_cast; rfl
      rw [h1, index_natCast, index_natCast]
      rw [List.getElem?_eq_getElem (by omega), List.getElem?_eq_getElem hi]
      exact ⟨rfl, rfl⟩
    · have h2 : ((locs.length : Int) - 2) = ((locs.length - 2 : Nat) : Int) := by omega
      rw [h2, index_natCast, List.getElem?_eq_getElem (by omega)]; rfl
    · have h1 : ((locs.length : Int) - 1) = ((locs.length - 1 : Nat) : Int) := by omega
      rw [h1, index_natCast, List.getElem?_eq_getElem (by omega)]; rfl
  · intro locs h
    obtain ⟨h1, h2⟩ := totalDistance_short F locs h
    refine ⟨h1, h2, ?_⟩
    unfold newTrip; rw [h2]
  · intro numTrips numLocations xMax yMax r hn ht
    exact newGeneration_short F numTrips numLocations xMax yMax r hn ht

/-- C19 at the three points `A, B, C`, at the single point `A`, and at
`newGeneration` of two trips over one point. -/
theorem C19_totalDistance_needs_two_points_witness :
    ((∃ d, totalDistance exactOps [pointA, pointB, pointC] = some d) ∧
      ∃ t, newTrip exactOps [pointA, pointB, pointC] = some t) ∧
    (totalDistance exactOps [pointA] = none ∧ newTrip exactOps [pointA] = none) ∧
    newGeneration exactOps 2 1 3 3 exampleSource = none :=
  ⟨((C19_totalDistance_needs_two_points exactOps).1 [pointA, pointB, pointC]
      (by decide)).2.2.2,
   ((C19_totalDistance_needs_two_points exactOps).2.1 [pointA] (by decide)).2,
   (C19_totalDistance_needs_two_points exactOps).2.2 2 1 3 3 exampleSource
      (by decide) (by decide)⟩

/-! ## Random locations -/

/-- With positive maximums `randLocation` returns the location made of its
two draws, each shifted by `1 - max`. -/
theorem randLocation_spec (xMax yMax : Int) (hx : 1 ≤ xMax) (hy : 1 ≤ yMax)
    (r : RandSource) :
    randLocation xMax yMax r =
      some ({ x := (r.intns r.pos : Int) % (xMax * 2) + 1 - xMax,
              y := (r.intns (r.pos + 1) : Int) % (yMax * 2) + 1 - yMax },
            r.advance.advance) := by
  unfold randLocation randIntn
  rw [if_neg (by omega)]
  simp only []
  rw [if_neg (by omega)]
  rfl

/-- The coordinates that `randLocation` returns lie in `[1 - max, max]`. -/
theorem randLocation_range (xMax yMax : Int) (hx : 1 ≤ xMax) (hy : 1 ≤ yMax)
    (r : RandSource) :
    ∃ l r', randLocation xMax yMax r = some (l, r') ∧
      1 - xMax ≤ l.x ∧ l.x ≤ xMax ∧ 1 - yMax ≤ l.y ∧ l.y ≤ yMax := by
  refine ⟨_, _, randLocation_spec xMax yMax hx hy r, ?_, ?_, ?_, ?_⟩
  · have := Int.emod_nonneg (r.intns r.pos : Int) (show xMax * 2 ≠ 0 by omega)
    simp only []; omega
  · have := Int.emod_lt_of_pos (r.intns r.pos : Int) (show 0 < xMax * 2 by omega)
    simp only []; omega
  · have := Int.emod_nonneg (r.intns (r.pos + 1) : Int) (show yMax * 2 ≠ 0 by omega)
    simp only []; omega
  · have := Int.emod_lt_of_pos (r.intns (r.pos + 1) : Int) (show 0 < yMax * 2 by omega)
    simp only []; omega

/-- Every location with coordinates in `[1 - max, max]` is returned for some
draws. -/
theorem randLocation_onto (xMax yMax : Int) (hx : 1 ≤ xMax) (hy : 1 ≤ yMax)
    (x y : Int) (hx1 : 1 - xMax ≤ x) (hx2 : x ≤ xMax) (hy1 : 1 - yMax ≤ y) (hy2 : y ≤ yMax) :
    ∃ r r', randLocation xMax yMax r = some ({ x := x, y := y }, r') := by
  have e1 : (((x - 1 + xMax).toNat : Nat) : Int) = x - 1 + xMax := Int.toNat_of_nonneg (by omega)
  have e2 : (((y - 1 + yMax).toNat : Nat) : Int) = y - 1 + yMax := Int.toNat_of_nonneg (by omega)
  have m1 : (x - 1 + xMax) % (xMax * 2) = x - 1 + xMax :=
    Int.emod_eq_of_lt (by omega) (by omega)
  have m2 : (y - 1 + yMax) % (yMax * 2) = y - 1 + yMax :=
    Int.emod_eq_of_lt (by omega) (by omega)
  refine ⟨{ float64s := fun _ => 0,
            intns := fun t => if t = 0 then (x - 1 + xMax).toNat else (y - 1 + yMax).toNat,
            perms := fun _ n => List.range n,
            pos := 0 },
          RandSource.advance (RandSource.advance
            { float64s := fun _ => 0,
              intns := fun t => if t = 0 then (x - 1 + xMax).toNat else (y - 1 + yMax).toNat,
              perms := fun _ n => List.range n,
              pos := 0 }), ?_⟩
  rw [randLocation_spec xMax yMax hx hy]
  simp only [if_true, Nat.zero_add, Nat.one_ne_zero, if_false, e1, e2, m1, m2]
  have a1 : x - 1 + xMax + 1 - xMax = x := by omega
  have a2 : y - 1 + yMax + 1 - yMax = y := by omega
  rw [a1, a2]

/-- C20, refuted as stated: with `xMax = 1` the interval `[-xMax, xMax]`
holds `-1`, but no draw makes `randLocation` return the x coordinate `-1`. -/
theorem C20_randLocation_never_lower_endpoint :
    ¬ ∃ (r : RandSource) (l : location) (r' : RandSource),
      randLocation 1 1 r = some (l, r') ∧ l.x = -1 := by
  rintro ⟨r, l, r', h, hx⟩
  obtain ⟨l', r'', h', h1, _⟩ := randLocation_range 1 1 (by decide) (by decide) r
  rw [h] at h'
  have hl : l = l' := (Prod.mk.inj (Option.some.inj h')).1
  subst hl
  omega

/-- C20 as amended: for `xMax >= 1` and `yMax >= 1`, `randLocation` always
returns, the x coordinates it can return are exactly the integers in
`[1 - xMax, xMax]` and the y coordinates exactly the integers in
`[1 - yMax, yMax]`: the lower endpoints `-xMax` and `-yMax` are not returned. -/
theorem C20_randLocation_coordinates (xMax yMax : Int) (hx : 1 ≤ xMax) (hy : 1 ≤ yMax) :
    (∀ r, ∃ l r', randLocation xMax yMax r = some (l, r') ∧
      1 - xMax ≤ l.x ∧ l.x ≤ xMax ∧ 1 - yMax ≤ l.y ∧ l.y ≤ yMax) ∧
    (∀ x y : Int, 1 - xMax ≤ x → x ≤ xMax → 1 - yMax ≤ y → y ≤ yMax →
      ∃ r r', randLocation xMax yMax r = some ({ x := x, y := y }, r')) :=
  ⟨fun r => randLocation_range xMax yMax hx hy r,
   fun x y h1 h2 h3 h4 => randLocation_onto xMax yMax hx hy x y h1 h2 h3 h4⟩

/-- C20 as amended, at the maximums `500, 500` of `main`: the corner
`(-499, 500)` is returned for some draws. -/
theorem C20_randLocation_coordinates_witness :
    (1 : Int) ≤ 500 ∧
    ∃ r r', randLocation 500 500 r = some ({ x := -499, y := 500 }, r') :=
  ⟨by decide,
    (C20_randLocation_coordinates 500 500 (by decide) (by decide)).2 (-499) 500
      (by decide) (by decide) (by decide) (by decide)⟩

/-! ## One generation step -/

/-- The single trip that the step appends is the last one, and the step
returns `numElites * numChildren + 1` trips. -/
theorem generationStep_shape (F : FloatOps) (numElites numChildren : Nat) (rate : ℚ)
    (g : List trip) (r : RandSource) (next : List trip) (r' : RandSource)
    (hg : g ≠ [])
    (h : generationStep F numElites numChildren rate g r = some (next, r')) :
    ∃ elites best, getSmallest g numElites = some elites ∧
      bestTrip elites = some best ∧ next.getLast? = some best ∧
      next.length = numElites * numChildren + 1 := by
  obtain ⟨elites, children, best, he, hb, hc, hn⟩ :=
    generationStep_stages F numElites numChildren rate g r next r' h
  obtain ⟨e2, he2, hlen, _⟩ := getSmallest_total g hg numElites
  rw [he] at he2
  have hee : elites = e2 := Option.some.inj he2
  subst hee
  have hcl := (makeChildren_some F elites numChildren rate r children r' hc).1
  refine ⟨elites, best, he, hb, ?_, ?_⟩
  · rw [hn]; simp
  · rw [hn, List.length_append, hcl, hlen]; rfl

/-- C17: on a non-empty population with at least one elite, a generation
step that returns yields `E * C + 1` trips whose last one is
`best = getSmallest(elites, 1)[0]`, and the minimum cost after the step is at
most the minimum cost before it; the step does return when every trip has at
least two points. -/
theorem C17_generation_step_shape_and_best (F : FloatOps) (numElites numChildren : Nat)
    (rate : ℚ) (g : List trip) (r : RandSource) (hg : g ≠ []) (hE : 1 ≤ numElites) :
    (∀ next r', generationStep F numElites numChildren rate g r = some (next, r') →
      next.length = numElites * numChildren + 1 ∧
      (∃ elites best, getSmallest g numElites = some elites ∧
        bestTrip elites = some best ∧ next.getLast? = some best) ∧
      ∃ b b', b ∈ g ∧ (∀ x ∈ g, b.totalDistance ≤ x.totalDistance) ∧
        b' ∈ next ∧ (∀ x ∈ next, b'.totalDistance ≤ x.totalDistance) ∧
        b'.totalDistance ≤ b.totalDistance) ∧
    ((∀ t ∈ g, 2 ≤ t.locations.length) →
      ∃ next r', generationStep F numElites numChildren rate g r = some (next, r')) := by
  refine ⟨?_, fun hlen => generationStep_total F numElites numChildren rate g r hg hE hlen⟩
  intro next r' h
  obtain ⟨elites, best, he, hb, hlast, hlen⟩ :=
    generationStep_shape F numElites numChildren rate g r next r' hg h
  obtain ⟨hnn, b, b', hbg, hbn, hle⟩ :=
    generationStep_best F numElites numChildren rate g r next r' hg hE h
  obtain ⟨b1, hb1, hm1, hmin1⟩ := bestTrip_spec g hg
  obtain ⟨b2, hb2, hm2, hmin2⟩ := bestTrip_spec next hnn
  rw [hbg] at hb1
  rw [hbn] at hb2
  have e1 : b = b1 := Option.some.inj hb1
  have e2 : b' = b2 := Option.some.inj hb2
  subst e1; subst e2
  exact ⟨hlen, ⟨elites, best, he, hb, hlast⟩, b, b', hm1, hmin1, hm2, hmin2, hle⟩

/-- C17 at the population `ACB (13), ABC (11), BCA (14)` with two elites and
three children per elite: the step returns seven trips. -/
theorem C17_generation_step_shape_and_best_witness :
    ∃ next r',
      generationStep exactOps 2 3 (1 / 10) [tripACB, tripABC, tripBCA] zeroSource =
        some (next, r') ∧
      next.length = 2 * 3 + 1 ∧
      ∃ b b', b ∈ [tripACB, tripABC, tripBCA] ∧ b' ∈ next ∧
        b'.totalDistance ≤ b.totalDistance :=
  have hw := C17_generation_step_shape_and_best exactOps 2 3 (1 / 10)
    [tripACB, tripABC, tripBCA] zeroSource (by decide) (by decide)
  have hlen : ∀ t ∈ [tripACB, tripABC, tripBCA], 2 ≤ t.locations.length := by decide
  match hw.2 hlen with
  | ⟨next, r', h⟩ =>
    match hw.1 next r' h with
    | ⟨h1, _, b, b', h2, _, h3, _, h4⟩ => ⟨next, r', h, h1, b, b', h2, h3, h4⟩

/-! ## Exchanging two places -/

theorem swapAt_length (l : List location) (i j : Nat) : (swapAt l i j).length = l.length := by
  unfold swapAt
  cases l[i]? <;> cases l[j]? <;> simp

theorem swapAt_getElem? (l : List location) (i j k : Nat) (hi : i < l.length)
    (hj : j < l.length) :
    (swapAt l i j)[k]? = l[if k = j then i else if k = i then j else k]? := by
  have ei : l[i]? = some l[i] := List.getElem?_eq_getElem hi
  have ej : l[j]? = some l[j] := List.getElem?_eq_getElem hj
  unfold swapAt
  rw [ei, ej]
  simp only []
  by_cases h1 : k = j
  · subst h1
    rw [if_pos rfl, ei]
    exact List.getElem?_set_self (by rw [List.length_set]; exact hj)
  · rw [if_neg h1, List.getElem?_set_ne (fun h => h1 h.symm)]
    by_cases h2 : k = i
    · subst h2
      rw [if_pos rfl, ej]
      exact List.getElem?_set_self hi
    · rw [if_neg h2, List.getElem?_set_ne (fun h => h2 h.symm)]

theorem swapAt_self (l : List location) (i : Nat) : swapAt l i i = l := by
  by_cases hi : i < l.length
  · apply List.ext_getElem?
    intro k
    rw [swapAt_getElem? l i i k hi hi]
    by_cases h : k = i
    · rw [if_pos h, h]
    · rw [if_neg h, if_neg h]
  · unfold swapAt
    rw [List.getElem?_eq_none (by omega)]

/-- Exchanging two places rearranges the sequence. -/
theorem swapAt_perm (l : List location) (i j : Nat) : (swapAt l i j).Perm l := by
  by_cases hi : i < l.length
  swap
  · unfold swapAt
    rw [List.getElem?_eq_none (by omega)]
  by_cases hj : j < l.length
  swap
  · unfold swapAt
    rw [List.getElem?_eq_none (show l.length ≤ j by omega)]
    cases l[i]? <;> exact List.Perm.refl _
  let σ : Nat → Nat := fun k => if k = j then i else if k = i then j else k
  let f : Nat → location := fun k => (l[k]?).getD { x := 0, y := 0 }
  have hσlt : ∀ k, k < l.length → σ k < l.length := by
    intro k hk
    simp only [σ]
    split_ifs <;> assumption
  have hσσ : ∀ k, σ (σ k) = k := by
    intro k
    simp only [σ]
    split_ifs <;> omega
  have e1 : l = (List.range l.length).map f := by
    apply List.ext_getElem?
    intro k
    by_cases hk : k < l.length
    · rw [List.getElem?_map, List.getElem?_range hk]
      simp only [Option.map_some', f, List.getElem?_eq_getElem hk, Option.getD_some]
    · rw [List.getElem?_eq_none (by omega), List.getElem?_eq_none (by simp; omega)]
  have e2 : swapAt l i j = ((List.range l.length).map σ).map f := by
    apply List.ext_getElem?
    intro k
    rw [swapAt_getElem? l i j k hi hj]
    by_cases hk : k < l.length
    · rw [List.getElem?_map, List.getElem?_map, List.getElem?_range hk]
      simp only [Option.map_some', f]
      rw [List.getElem?_eq_getElem (hσlt k hk)]
      rfl
    · have hk2 : ¬ σ k < l.length := by
        intro h
        have := hσlt (σ k) h
        rw [hσσ] at this
        exact hk this
      have hL : l[if k = j then i else if k = i then j else k]? = none :=
        List.getElem?_eq_none (by simp only [σ] at hk2; omega)
      have hR : (((List.range l.length).map σ).map f)[k]? = none :=
        List.getElem?_eq_none (by simp; omega)
      rw [hL, hR]
  have hperm : ((List.range l.length).map σ).Perm (List.range l.length) := by
    apply (List.perm_ext_iff_of_nodup ?_ (List.nodup_range _)).2
    · intro k
      simp only [List.mem_map, List.mem_range]
      constructor
      · rintro ⟨a, ha, rfl⟩; exact hσlt a ha
      · intro hk; exact ⟨σ k, hσlt k hk, hσσ k⟩
    · apply List.Nodup.map_on _ (List.nodup_range _)
      intro a _ b _ hab
      have := congrArg σ hab
      rwa [hσσ, hσσ] at this
  rw [e2]
  conv_rhs => rw [e1]
  exact hperm.map f

/-! ## The loop of `mutate`, step by step -/

theorem sameStreams_refl (r : RandSource) : sameStreams r r := ⟨rfl, rfl, rfl⟩

theorem sameStreams_advance (r : RandSource) : sameStreams r r.advance := ⟨rfl, rfl, rfl⟩

theorem sameStreams_trans {a b c : RandSource} (h1 : sameStreams a b) (h2 : sameStreams b c) :
    sameStreams a c :=
  ⟨h2.1.trans h1.1, h2.2.1.trans h1.2.1, h2.2.2.trans h1.2.2⟩

/-- One iteration of the loop of `mutate` at a position inside the sequence:
one probability draw, and when it is below the rate one target draw and the
exchange of the position with the target. -/
theorem mutateLoop_succ (rate : ℚ) (L count i : Nat) (locs : List location)
    (r : RandSource) (hl : locs.length = L) (hi : i < L) :
    mutateLoop rate L (count + 1) i locs r =
      if r.float64s r.pos < rate then
        mutateLoop rate L count (i + 1) (swapAt locs i (r.intns (r.pos + 1) % L))
          r.advance.advance
      else mutateLoop rate L count (i + 1) locs r.advance := by
  have hpos : ¬ ((L : Int) ≤ 0) := by omega
  have hv : randIntn r.advance (L : Int) =
      some (((r.intns (r.pos + 1) % L : Nat) : Int), r.advance.advance) := by
    unfold randIntn
    rw [if_neg hpos]
    simp only [RandSource.advance]
    push_cast
    rfl
  have htl : r.intns (r.pos + 1) % L < locs.length := by
    rw [hl]; exact Nat.mod_lt _ (by omega)
  have hil : i < locs.length := by omega
  conv_lhs => unfold mutateLoop
  simp only [randFloat64]
  by_cases hu : r.float64s r.pos < rate
  · rw [if_pos hu, if_pos hu, hv]
    simp only []
    by_cases hp : r.intns (r.pos + 1) % L = i
    · have hp' : ¬ (((r.intns (r.pos + 1) % L : Nat) : Int) ≠ (i : Int)) := by
        rw [hp]; simp
      rw [if_neg hp', hp, swapAt_self]
    · have hp' : (((r.intns (r.pos + 1) % L : Nat) : Int) ≠ (i : Int)) := by
        intro h; exact hp (Int.ofNat.inj h)
      rw [if_pos hp', index_natCast]
      have e1 : locs[i]? = some locs[i] := List.getElem?_eq_getElem hil
      have e2 : locs[r.intns (r.pos + 1) % L]? = some locs[r.intns (r.pos + 1) % L] :=
        List.getElem?_eq_getElem htl
      rw [e1, e2]
      simp only [Int.toNat_ofNat]
      unfold swapAt
      rw [e1, e2]
  · rw [if_neg hu, if_neg hu]

/-- The loop of `mutate` returns a rearrangement of the sequence and reads on
in the same streams. -/
theorem mutateLoop_perm (rate : ℚ) (L : Nat) :
    ∀ (count i : Nat) (locs : List location) (r : RandSource),
      locs.length = L → i + count ≤ L →
      ∃ locs' r', mutateLoop rate L count i locs r = some (locs', r') ∧
        locs'.Perm locs ∧ sameStreams r r' := by
  intro count
  induction count with
  | zero =>
    intro i locs r _ _
    exact ⟨locs, r, rfl, List.Perm.refl _, sameStreams_refl r⟩
  | succ n ih =>
    intro i locs r hl hi
    rw [mutateLoop_succ rate L n i locs r hl (by omega)]
    by_cases hu : r.float64s r.pos < rate
    · rw [if_pos hu]
      obtain ⟨locs', r', h1, h2, h3⟩ := ih (i + 1) (swapAt locs i (r.intns (r.pos + 1) % L))
        r.advance.advance (by rw [swapAt_length, hl]) (by omega)
      exact ⟨locs', r', h1, h2.trans (swapAt_perm _ _ _),
        sameStreams_trans (sameStreams_trans (sameStreams_advance r)
          (sameStreams_advance r.advance)) h3⟩
    · rw [if_neg hu]
      obtain ⟨locs', r', h1, h2, h3⟩ := ih (i + 1) locs r.advance hl (by omega)
      exact ⟨locs', r', h1, h2, sameStreams_trans (sameStreams_advance r) h3⟩

/-- The function `mutate` always returns a rearrangement of its input, of the
same length, and reads on in the same streams. -/
theorem mutate_perm (locs : List location) (rate : ℚ) (r : RandSource) :
    ∃ locs' r', mutate locs rate r = some (locs', r') ∧ locs'.length = locs.length ∧
      locs'.Perm locs ∧ sameStreams r r' := by
  obtain ⟨locs', r', h1, h2, h3⟩ :=
    mutateLoop_perm rate locs.length locs.length 0 locs r rfl (by omega)
  exact ⟨locs', r', h1, h2.length_eq, h2, h3⟩

/-- At rate `0`, with probability draws that are not negative, the loop of
`mutate` makes one probability draw per position and no target draw, and
leaves the sequence as it is. -/
theorem mutateLoop_rate_zero (L : Nat) :
    ∀ (count i : Nat) (locs : List location) (r : RandSource),
      (∀ t, 0 ≤ r.float64s t) → locs.length = L → i + count ≤ L →
      mutateLoop 0 L count i locs r = some (locs, { r with pos := r.pos + count }) := by
  intro count
  induction count with
  | zero => intro i locs r _ _ _; rfl
  | succ n ih =>
    intro i locs r hf hl hi
    rw [mutateLoop_succ 0 L n i locs r hl (by omega), if_neg (not_lt.2 (hf r.pos))]
    rw [ih (i + 1) locs r.advance hf hl (by omega)]
    simp only [RandSource.advance]
    congr 3
    omega

/-- At rate `1`, with probability draws below `1`, the loop of `mutate` makes
a probability draw and a target draw per position and exchanges each position
with its target, in order. -/
theorem mutateLoop_rate_one (L : Nat) (floats : Nat → ℚ) (ints : Nat → Nat)
    (perms : Nat → Nat → List Nat) (p0 : Nat) (hf : ∀ t, floats t < 1) :
    ∀ (count i : Nat) (locs : List location),
      locs.length = L → i + count ≤ L →
      mutateLoop 1 L count i locs
          { float64s := floats, intns := ints, perms := perms, pos := p0 + 2 * i } =
        some ((List.range' i count).foldl
                (fun l k => swapAt l k (ints (p0 + 2 * k + 1) % L)) locs,
              { float64s := floats, intns := ints, perms := perms,
                pos := p0 + 2 * (i + count) }) := by
  intro count
  induction count with
  | zero => intro i locs _ _; rfl
  | succ n ih =>
    intro i locs hl hi
    rw [mutateLoop_succ 1 L n i locs _ hl (by omega)]
    simp only [RandSource.advance]
    rw [if_pos (hf _)]
    have hp : p0 + 2 * i + 1 + 1 = p0 + 2 * (i + 1) := by omega
    rw [hp, ih (i + 1) _ (by rw [swapAt_length, hl]) (by omega)]
    have hq : p0 + 2 * (i + 1 + n) = p0 + 2 * (i + (n + 1)) := by omega
    rw [hq]
    rfl

/-- C14: at rate `1.0` (probability draws lie below `1`) `mutate` on a
sequence of length `L` makes `L` swap attempts: after the probability draw of
position `i` it draws the target of position `i`, for `i = 0 .. L-1` in order
(`2 * L` draws in all), and it returns the sequence obtained by exchanging
each position with its target in that order, an exchange with itself being a
no-op; at rate `0.0` (probability draws are not negative) it makes the `L`
probability draws only, no target draw, and returns the sequence unchanged. -/
theorem C14_mutate_rate_one_and_rate_zero (locs : List location) (r : RandSource) :
    ((∀ t, r.float64s t < 1) →
      mutate locs 1 r =
        some (specSwapAll (fun i => r.intns (r.pos + 2 * i + 1) % locs.length) locs,
              { r with pos := r.pos + 2 * locs.length })) ∧
    ((∀ t, 0 ≤ r.float64s t) →
      mutate locs 0 r = some (locs, { r with pos := r.pos + locs.length })) ∧
    (∀ (l : List location) (i : Nat), swapAt l i i = l) := by
  refine ⟨?_, ?_, swapAt_self⟩
  · intro hf
    obtain ⟨floats, ints, perms, p0⟩ := r
    have h := mutateLoop_rate_one locs.length floats ints perms p0 hf locs.length 0 locs rfl
      (by omega)
    simp only [Nat.mul_zero, Nat.add_zero, Nat.zero_add] at h
    unfold mutate specSwapAll
    rw [h, List.range_eq_range']
  · intro hf
    exact mutateLoop_rate_zero locs.length locs.length 0 locs r hf rfl (by omega)

/-- C14 at the sequence `A, B, C` with all draws `0`: at rate `1` every
position is exchanged with position 0, which gives `C, A, B` after six draws;
at rate `0` the sequence is unchanged after three draws. -/
theorem C14_mutate_rate_one_and_rate_zero_witness :
    mutate [pointA, pointB, pointC] 1 zeroSource =
      some ([pointC, pointA, pointB], { zeroSource with pos := 6 }) ∧
    mutate [pointA, pointB, pointC] 0 zeroSource =
      some ([pointA, pointB, pointC], { zeroSource with pos := 3 }) := by
  have hw := C14_mutate_rate_one_and_rate_zero [pointA, pointB, pointC] zeroSource
  refine ⟨?_, ?_⟩
  · rw [hw.1 (by intro t; simp [zeroSource])]
    simp [specSwapAll, zeroSource, swapAt, List.range, List.range.loop]
  · rw [hw.2.1 (by intro t; simp [zeroSource])]
    simp [zeroSource]

/-! ## Children and their parents -/

theorem childOf_of_sameStreams (F : FloatOps) (rate : ℚ) {r r0 : RandSource}
    (parent t : trip) (hs : sameStreams r r0) (h : childOf F rate r0 parent t) :
    childOf F rate r parent t := by
  obtain ⟨r1, r2, seq, h1, h2, h3⟩ := h
  exact ⟨r1, r2, seq, sameStreams_trans hs h1, h2, h3⟩

/-- A child visits the points of its parent in some order and stores a
consistent cost. -/
theorem childOf_perm (F : FloatOps) (rate : ℚ) (r : RandSource) (parent t : trip)
    (h : childOf F rate r parent t) :
    t.locations.Perm parent.locations ∧
      t.locations.length = parent.locations.length ∧ consistent F t := by
  obtain ⟨r1, r2, seq, _, h2, h3⟩ := h
  obtain ⟨seq', r2', hm, hlen, hperm, _⟩ := mutate_perm parent.locations rate r1
  rw [h2] at hm
  have hseq : seq = seq' := (Prod.mk.inj (Option.some.inj hm)).1
  subst hseq
  obtain ⟨hloc, hcons⟩ := newTrip_some F seq t h3
  rw [hloc]
  exact ⟨hperm, hlen, hcons⟩

/-- At rate `0`, with probability draws that are not negative, a child of a
consistent parent is the parent: the same sequence and the same cost. -/
theorem childOf_rate_zero (F : FloatOps) (r : RandSource) (parent t : trip)
    (hf : ∀ n, 0 ≤ r.float64s n) (hc : consistent F parent)
    (h : childOf F 0 r parent t) : t = parent := by
  obtain ⟨r1, r2, seq, hs, h2, h3⟩ := h
  have hf1 : ∀ n, 0 ≤ r1.float64s n := by rw [hs.1]; exact hf
  have hm := mutateLoop_rate_zero parent.locations.length parent.locations.length 0
    parent.locations r1 hf1 rfl (by omega)
  unfold mutate at h2
  rw [hm] at h2
  have hseq : parent.locations = seq := (Prod.mk.inj (Option.some.inj h2)).1
  subst hseq
  unfold newTrip at h3
  unfold consistent at hc
  rw [hc] at h3
  exact (Option.some.inj h3).symm

/-- The trips that the inner loop of `makeChildren` appends are `count`
children of the parent. -/
theorem makeChildrenOf_children (F : FloatOps) (parent : trip) (rate : ℚ) :
    ∀ (count : Nat) (children : List trip) (r : RandSource)
      (result : List trip × RandSource),
      makeChildrenOf F parent rate count children r = some result →
      ∃ new, result.1 = children ++ new ∧ new.length = count ∧
        sameStreams r result.2 ∧ ∀ t ∈ new, childOf F rate r parent t := by
  intro count
  induction count with
  | zero =>
    intro children r result h
    simp only [makeChildrenOf, Option.some.injEq] at h
    subst h
    exact ⟨[], by simp, rfl, sameStreams_refl r, by simp⟩
  | succ n ih =>
    intro children r result h
    obtain ⟨child, r1, hm, _, _, hs⟩ := mutate_perm parent.locations rate r
    unfold makeChildrenOf at h
    rw [hm] at h
    simp only [] at h
    cases ht : newTrip F child with
    | none => rw [ht] at h; exact Option.noConfusion h
    | some t =>
      rw [ht] at h
      simp only [] at h
      obtain ⟨new, h1, h2, h3, h4⟩ := ih (children ++ [t]) r1 result h
      refine ⟨t :: new, by rw [h1]; simp, by simp [h2], sameStreams_trans hs h3, ?_⟩
      intro x hx
      rcases List.mem_cons.1 hx with hx | hx
      · subst hx
        exact ⟨r, r1, child, sameStreams_refl r, hm, ht⟩
      · exact childOf_of_sameStreams F rate parent x hs (h4 x hx)

/-- The trips that the outer loop of `makeChildren` appends: `numChildren`
per parent, the children of the parent number `i` at the places
`i * numChildren .. i * numChildren + numChildren - 1`. -/
theorem makeChildrenLoop_children (F : FloatOps) (numChildren : Nat) (rate : ℚ) :
    ∀ (gen children : List trip) (r : RandSource) (result : List trip × RandSource),
      makeChildrenLoop F numChildren rate gen children r = some result →
      ∃ new, result.1 = children ++ new ∧ new.length = gen.length * numChildren ∧
        sameStreams r result.2 ∧
        (∀ t ∈ new, ∃ parent ∈ gen, childOf F rate r parent t) ∧
        (∀ i j : Nat, i < gen.length → j < numChildren →
          ∃ parent t, gen[i]? = some parent ∧ new[i * numChildren + j]? = some t ∧
            childOf F rate r parent t) := by
  intro gen
  induction gen with
  | nil =>
    intro children r result h
    simp only [makeChildrenLoop, Option.some.injEq] at h
    subst h
    exact ⟨[], by simp, by simp, sameStreams_refl r, by simp, by simp⟩
  | cons parent rest ih =>
    intro children r result h
    unfold makeChildrenLoop at h
    cases hc : makeChildrenOf F parent rate numChildren children r with
    | none => rw [hc] at h; exact Option.noConfusion h
    | some mid =>
      rw [hc] at h
      simp only [] at h
      obtain ⟨new1, a1, a2, a3, a4⟩ :=
        makeChildrenOf_children F parent rate numChildren children r mid hc
      obtain ⟨new2, b1, b2, b3, b4, b5⟩ := ih mid.1 mid.2 result h
      refine ⟨new1 ++ new2, by rw [b1, a1, List.append_assoc], ?_,
        sameStreams_trans a3 b3, ?_, ?_⟩
      · rw [List.length_append, a2, b2, List.length_cons]; ring
      · intro x hx
        rcases List.mem_append.1 hx with hx | hx
        · exact ⟨parent, List.mem_cons_self _ _, a4 x hx⟩
        · obtain ⟨p, hp, hch⟩ := b4 x hx
          exact ⟨p, List.mem_cons_of_mem _ hp, childOf_of_sameStreams F rate p x a3 hch⟩
      · intro i j hi hj
        cases i with
        | zero =>
          have hjl : j < new1.length := by rw [a2]; exact hj
          refine ⟨parent, new1[j], by simp, ?_, a4 _ (List.getElem_mem hjl)⟩
          rw [Nat.zero_mul, Nat.zero_add, List.getElem?_append_left hjl]
          exact List.getElem?_eq_getElem hjl
        | succ i =>
          have hi' : i < rest.length := by simpa using hi
          obtain ⟨p, t, hp, ht, hch⟩ := b5 i j hi' hj
          refine ⟨p, t, by simpa using hp, ?_, childOf_of_sameStreams F rate p t a3 hch⟩
          have hidx : (i + 1) * numChildren + j = new1.length + (i * numChildren + j) := by
            rw [a2, Nat.succ_mul]; omega
          rw [hidx, List.getElem?_append_right (by omega)]
          rw [Nat.add_sub_cancel_left]
          exact ht

/-- The result of `makeChildren`, when it returns: `numChildren` children per
parent, laid out parent by parent. -/
theorem makeChildren_children (F : FloatOps) (gen : List trip) (numChildren : Nat)
    (rate : ℚ) (r : RandSource) (children : List trip) (r' : RandSource)
    (h : makeChildren F gen numChildren rate r = some (children, r')) :
    children.length = gen.length * numChildren ∧
      (∀ t ∈ children, ∃ parent ∈ gen, childOf F rate r parent t) ∧
      (∀ i j : Nat, i < gen.length → j < numChildren →
        ∃ parent t, gen[i]? = some parent ∧ children[i * numChildren + j]? = some t ∧
          childOf F rate r parent t) := by
  obtain ⟨new, h1, h2, _, h4, h5⟩ :=
    makeChildrenLoop_children F numChildren rate gen [] r _ h
  simp only [List.nil_append] at h1
  subst h1
  exact ⟨h2, h4, h5⟩

/-- When every parent has at least two points `makeChildren` returns. -/
theorem makeChildren_total (F : FloatOps) (gen : List trip) (numChildren : Nat)
    (rate : ℚ) (r : RandSource) (hp : ∀ p ∈ gen, 2 ≤ p.locations.length) :
    ∃ children r', makeChildren F gen numChildren rate r = some (children, r') := by
  obtain ⟨res, hres⟩ := makeChildrenLoop_total F numChildren rate gen [] r hp
  exact ⟨res.1, res.2, hres⟩

/-- C12: for elites of at least two points each, `makeChildren` returns
exactly `len(elites) * c` trips, and the children of the elite number `i`
occupy the places `i * c .. i * c + c - 1` of the result. -/
theorem C12_makeChildren_count_and_layout (F : FloatOps) (elites : List trip) (c : Nat)
    (rate : ℚ) (r : RandSource) (hp : ∀ p ∈ elites, 2 ≤ p.locations.length) :
    ∃ children r', makeChildren F elites c rate r = some (children, r') ∧
      children.length = elites.length * c ∧
      ∀ i j : Nat, i < elites.length → j < c →
        ∃ parent t, elites[i]? = some parent ∧ children[i * c + j]? = some t ∧
          childOf F rate r parent t := by
  obtain ⟨children, r', h⟩ := makeChildren_total F elites c rate r hp
  obtain ⟨h1, _, h3⟩ := makeChildren_children F elites c rate r children r' h
  exact ⟨children, r', h, h1, h3⟩

/-- C12 at the elites `ABC, ACB` with two children each. -/
theorem C12_makeChildren_count_and_layout_witness :
    ∃ children r',
      makeChildren exactOps [tripABC, tripACB] 2 (1 / 10) zeroSource = some (children, r') ∧
      children.length = [tripABC, tripACB].length * 2 ∧
      ∀ i j : Nat, i < [tripABC, tripACB].length → j < 2 →
        ∃ parent t, [tripABC, tripACB][i]? = some parent ∧
          children[i * 2 + j]? = some t ∧ childOf exactOps (1 / 10) zeroSource parent t :=
  C12_makeChildren_count_and_layout exactOps [tripABC, tripACB] 2 (1 / 10) zeroSource
    (by decide)

/-- C13: at rate `0`, for consistent elites and probability draws that are
not negative, every child that `makeChildren` returns has the sequence and
the cost of its parent elite. -/
theorem C13_rate_zero_children_equal_parents (F : FloatOps) (elites : List trip) (c : Nat)
    (r : RandSource) (hc : ∀ p ∈ elites, consistent F p) (hf : ∀ n, 0 ≤ r.float64s n) :
    ∃ children r', makeChildren F elites c 0 r = some (children, r') ∧
      children.length = elites.length * c ∧
      ∀ i j : Nat, i < elites.length → j < c →
        ∃ parent child, elites[i]? = some parent ∧ children[i * c + j]? = some child ∧
          child.locations = parent.locations ∧
          child.totalDistance = parent.totalDistance := by
  obtain ⟨children, r', h⟩ := makeChildren_total F elites c 0 r
    (fun p hp => consistent_length F p (hc p hp))
  obtain ⟨h1, _, h3⟩ := makeChildren_children F elites c 0 r children r' h
  refine ⟨children, r', h, h1, ?_⟩
  intro i j hi hj
  obtain ⟨parent, t, e1, e2, hch⟩ := h3 i j hi hj
  have hpc : consistent F parent := hc parent (List.getElem?_mem e1)
  have ht : t = parent := childOf_rate_zero F r parent t hf hpc hch
  subst ht
  exact ⟨t, t, e1, e2, rfl, rfl⟩

/-- C13 at the elites `ABC, ACB` with two children each: the result is
`ABC, ABC, ACB, ACB`. -/
theorem C13_rate_zero_children_equal_parents_witness :
    ∃ children r',
      makeChildren exactOps [tripABC, tripACB] 2 0 zeroSource = some (children, r') ∧
      children.length = [tripABC, tripACB].length * 2 ∧
      ∀ i j : Nat, i < [tripABC, tripACB].length → j < 2 →
        ∃ parent child, [tripABC, tripACB][i]? = some parent ∧
          children[i * 2 + j]? = some child ∧
          child.locations = parent.locations ∧
          child.totalDistance = parent.totalDistance :=
  C13_rate_zero_children_equal_parents exactOps [tripABC, tripACB] 2 zeroSource
    (by
      intro p hp
      rcases List.mem_cons.1 hp with h | h
      · rw [h]; exact examples_consistent.2.1
      · rw [List.mem_singleton] at h; rw [h]; exact examples_consistent.2.2.1)
    (by intro n; simp [zeroSource])

/-! ## One point set -/

theorem randLocations_streams :
    ∀ (numLocations : Nat) (xMax yMax : Int) (r : RandSource)
      (locs : List location) (r' : RandSource),
      randLocations numLocations xMax yMax r = some (locs, r') → sameStreams r r' := by
  intro numLocations
  induction numLocations with
  | zero =>
    intro xMax yMax r locs r' h
    simp only [randLocations, Option.some.injEq, Prod.mk.injEq] at h
    obtain ⟨_, h2⟩ := h
    subst h2; exact sameStreams_refl r
  | succ n ih =>
    intro xMax yMax r locs r' h
    unfold randLocations at h
    cases hl : randLocation xMax yMax r with
    | none => rw [hl] at h; exact Option.noConfusion h
    | some p =>
      obtain ⟨l, r1⟩ := p
      rw [hl] at h
      simp only [] at h
      cases hr : randLocations n xMax yMax r1 with
      | none => rw [hr] at h; exact Option.noConfusion h
      | some q =>
        obtain ⟨rest, r2⟩ := q
        rw [hr] at h
        simp only [Option.some.injEq, Prod.mk.injEq] at h
        obtain ⟨_, h2⟩ := h
        subst h2
        have hs1 : sameStreams r r1 := by
          unfold randLocation randIntn at hl
          split_ifs at hl with c1 c2
          simp only [Option.some.injEq, Prod.mk.injEq] at hl
          rw [← hl.2]
          exact sameStreams_trans (sameStreams_advance r) (sameStreams_advance r.advance)
        exact sameStreams_trans hs1 (ih xMax yMax r1 rest r2 hr)

/-- When the order drawn is a permutation, what `shuffleLocations` returns is
a rearrangement of its input. -/
theorem shuffleLocations_perm (locs : List location) (r : RandSource)
    (res : List location) (r' : RandSource)
    (hv : (r.perms r.pos locs.length).Perm (List.range locs.length))
    (h : shuffleLocations locs r = some (res, r')) :
    res.Perm locs ∧ sameStreams r r' := by
  obtain ⟨result, h1, _, h3, _⟩ := shuffleLocationsWith_spec _ locs hv
  unfold shuffleLocations at h
  simp only [randPerm, h1, Option.some.injEq, Prod.mk.injEq] at h
  obtain ⟨e1, e2⟩ := h
  subst e1; subst e2
  exact ⟨h3, sameStreams_advance r⟩

/-- When every order drawn is a permutation, every trip that the loop of
`newGeneration` builds visits the given points in some order. -/
theorem newGenerationLoop_perm (F : FloatOps) (locs : List location) :
    ∀ (numTrips : Nat) (r : RandSource) (gen : List trip) (r' : RandSource),
      (∀ t n, (r.perms t n).Perm (List.range n)) →
      newGenerationLoop F locs numTrips r = some (gen, r') →
      ∀ t ∈ gen, t.locations.Perm locs := by
  intro numTrips
  induction numTrips with
  | zero =>
    intro r gen r' _ h
    simp only [newGenerationLoop, Option.some.injEq, Prod.mk.injEq] at h
    obtain ⟨h1, _⟩ := h
    subst h1; simp
  | succ n ih =>
    intro r gen r' hv h
    unfold newGenerationLoop at h
    cases hs : shuffleLocations locs r with
    | none => rw [hs] at h; exact Option.noConfusion h
    | some p =>
      obtain ⟨sh, r1⟩ := p
      rw [hs] at h
      simp only [] at h
      cases ht : newTrip F sh with
      | none => rw [ht] at h; exact Option.noConfusion h
      | some t =>
        rw [ht] at h
        simp only [] at h
        cases hl : newGenerationLoop F locs n r1 with
        | none => rw [hl] at h; exact Option.noConfusion h
        | some q =>
          obtain ⟨rest, r2⟩ := q
          rw [hl] at h
          simp only [Option.some.injEq, Prod.mk.injEq] at h
          obtain ⟨h1, _⟩ := h
          subst h1
          obtain ⟨hperm, hss⟩ := shuffleLocations_perm locs r sh r1 (hv _ _) hs
          have hv1 : ∀ t n, (r1.perms t n).Perm (List.range n) := by
            rw [hss.2.2]; exact hv
          intro x hx
          rcases List.mem_cons.1 hx with hx | hx
          · subst hx
            rw [(newTrip_some F sh x ht).1]; exact hperm
          · exact ih r1 rest r2 hv1 hl x hx

/-- C11: every member of a population is a trip over the one point set.
When every order that `rand.Perm` returns is a permutation, every trip in the
result of `newGeneration` is a rearrangement of the point set that
`randLocations` generated; `mutate` always returns a rearrangement of its
input of the same length; every child in the result of `makeChildren` is a
rearrangement of the sequence of its parent; and when every trip of a
population is a rearrangement of `P`, so is every trip after a generation
step. -/
theorem C11_tours_over_one_point_set (F : FloatOps) :
    (∀ numTrips numLocations xMax yMax r gen r',
      (∀ t n, (r.perms t n).Perm (List.range n)) →
      newGeneration F numTrips numLocations xMax yMax r = some (gen, r') →
      ∃ points r1, randLocations numLocations xMax yMax r = some (points, r1) ∧
        ∀ t ∈ gen, t.locations.Perm points) ∧
    (∀ locs rate r, ∃ locs' r', mutate locs rate r = some (locs', r') ∧
      locs'.length = locs.length ∧ locs'.Perm locs) ∧
    (∀ elites c rate r children r',
      makeChildren F elites c rate r = some (children, r') →
      (∀ t ∈ children, ∃ parent ∈ elites, t.locations.Perm parent.locations) ∧
      ∀ i j : Nat, i < elites.length → j < c →
        ∃ parent t, elites[i]? = some parent ∧ children[i * c + j]? = some t ∧
          t.locations.Perm parent.locations) ∧
    (∀ (P : List location) numElites numChildren rate g r next r',
      (∀ t ∈ g, t.locations.Perm P) →
      generationStep F numElites numChildren rate g r = some (next, r') →
      ∀ t ∈ next, t.locations.Perm P) := by
  refine ⟨?_, ?_, ?_, ?_⟩
  · intro numTrips numLocations xMax yMax r gen r' hv h
    unfold newGeneration at h
    cases hl : randLocations numLocations xMax yMax r with
    | none => rw [hl] at h; exact Option.noConfusion h
    | some p =>
      obtain ⟨points, r1⟩ := p
      rw [hl] at h
      simp only [] at h
      have hs := randLocations_streams numLocations xMax yMax r points r1 hl
      have hv1 : ∀ t n, (r1.perms t n).Perm (List.range n) := by
        rw [hs.2.2]; exact hv
      exact ⟨points, r1, rfl, newGenerationLoop_perm F points numTrips r1 gen r' hv1 h⟩
  · intro locs rate r
    obtain ⟨locs', r', h1, h2, h3, _⟩ := mutate_perm locs rate r
    exact ⟨locs', r', h1, h2, h3⟩
  · intro elites c rate r children r' h
    obtain ⟨_, h2, h3⟩ := makeChildren_children F elites c rate r children r' h
    refine ⟨?_, ?_⟩
    · intro t ht
      obtain ⟨parent, hp, hch⟩ := h2 t ht
      exact ⟨parent, hp, (childOf_perm F rate r parent t hch).1⟩
    · intro i j hi hj
      obtain ⟨parent, t, e1, e2, hch⟩ := h3 i j hi hj
      exact ⟨parent, t, e1, e2, (childOf_perm F rate r parent t hch).1⟩
  · intro P numElites numChildren rate g r next r' hP h
    obtain ⟨elites, children, best, he, hb, hc, hn⟩ :=
      generationStep_stages F numElites numChildren rate g r next r' h
    obtain ⟨_, h2, _⟩ := makeChildren_children F elites numChildren rate r children r' hc
    subst hn
    intro t ht
    rcases List.mem_append.1 ht with ht | ht
    · obtain ⟨parent, hp, hch⟩ := h2 t ht
      exact ((childOf_perm F rate r parent t hch).1).trans
        (hP parent (getSmallest_mem g numElites elites he parent hp))
    · rw [List.mem_singleton] at ht
      subst ht
      exact hP t (getSmallest_mem g numElites elites he t (bestTrip_mem elites t hb))

/-- C11 at concrete inputs: the generation that `newGeneration` builds from
`exampleSource`, `mutate` on `A, B, C`, and a generation step from the
population `ACB, ABC, BCA` over the points `A, B, C`. -/
theorem C11_tours_over_one_point_set_witness :
    (∃ gen r' points r1,
      newGeneration exactOps 2 2 3 3 exampleSource = some (gen, r') ∧
      randLocations 2 3 3 exampleSource = some (points, r1) ∧
      ∀ t ∈ gen, t.locations.Perm points) ∧
    (∃ locs' r', mutate [pointA, pointB, pointC] (1 / 10) zeroSource = some (locs', r') ∧
      locs'.length = [pointA, pointB, pointC].length ∧
      locs'.Perm [pointA, pointB, pointC]) ∧
    (∃ next r',
      generationStep exactOps 2 3 (1 / 10) [tripACB, tripABC, tripBCA] zeroSource =
        some (next, r') ∧
      ∀ t ∈ next, t.locations.Perm [pointA, pointB, pointC]) := by
  have hw := C11_tours_over_one_point_set exactOps
  refine ⟨?_, hw.2.1 [pointA, pointB, pointC] (1 / 10) zeroSource, ?_⟩
  · cases hn : newGeneration exactOps 2 2 3 3 exampleSource with
    | none =>
      have h := newGeneration_example
      rw [hn] at h
      exact Option.noConfusion h
    | some p =>
      obtain ⟨gen, r'⟩ := p
      obtain ⟨points, r1, h1, h2⟩ := hw.1 2 2 3 3 exampleSource gen r'
        (by intro t n; exact List.Perm.refl _) hn
      exact ⟨gen, r', points, r1, rfl, h1, h2⟩
  · obtain ⟨next, r', h⟩ := generationStep_total exactOps 2 3 (1 / 10)
      [tripACB, tripABC, tripBCA] zeroSource (by decide) (by decide) (by decide)
    refine ⟨next, r', h, hw.2.2.2 [pointA, pointB, pointC] 2 3 (1 / 10)
      [tripACB, tripABC, tripBCA] zeroSource next r' ?_ h⟩
    decide

/-! ## The shape of the picked positions -/

theorem mem_belowList (g : List trip) (j : Nat) :
    j ∈ (List.range g.length).filter (fun j => decide (costAt g j < costAt g 0)) ↔
      j < g.length ∧ costAt g j < costAt g 0 := by
  simp [List.mem_filter]

/-- Distinct positions below the start cost are at most `belowStart`. -/
theorem length_le_belowStart (g : List trip) (bs : List Nat) (hnd : bs.Nodup)
    (hb : ∀ b ∈ bs, b < g.length ∧ costAt g b < costAt g 0) :
    bs.length ≤ belowStart g :=
  (List.subperm_of_subset hnd (fun b h => (mem_belowList g b).2 (hb b h))).length_le

/-- A list that holds every position below the start cost has at least
`belowStart` entries. -/
theorem belowStart_le_length (g : List trip) (bs : List Nat)
    (hall : ∀ j, j < g.length → costAt g j < costAt g 0 → j ∈ bs) :
    belowStart g ≤ bs.length :=
  (List.subperm_of_subset ((List.nodup_range _).filter _)
    (fun j h => hall j ((mem_belowList g j).1 h).1 ((mem_belowList g j).1 h).2)).length_le

/-- What one round picks: position 0 when every position below the start
cost has been picked, else the unpicked position below the start cost that
comes first in the order of picking. -/
theorem scanSmallest_round_cases (g : List trip) (hg : g ≠ []) (S : List Nat) :
    ∃ r, scanSmallest g S (List.range' 1 (g.length - 1)) 0 = some r ∧
      ((r = 0 ∧ ∀ j, j < g.length → costAt g j < costAt g 0 → j ∈ S) ∨
       (r < g.length ∧ costAt g r < costAt g 0 ∧ r ∉ S ∧
         ∀ j, j < g.length → costAt g j < costAt g 0 → j ∉ S → j ≠ r →
           costBefore g r j)) := by
  have hpos : 0 < g.length := List.length_pos.2 hg
  obtain ⟨r, hr, hlt, hor, _, hall⟩ := scanSmallest_round g hg S
  have hfirst := scanSmallest_first g S (List.range' 1 (g.length - 1)) 0 r hpos
    (fun j hj => (mem_scanRange.1 hj).2) (List.pairwise_lt_range' 1 (g.length - 1))
    (fun j hj => (mem_scanRange.1 hj).1) hr
  have hne : ∀ j, costAt g j < costAt g 0 → 1 ≤ j := by
    intro j hj
    rcases Nat.eq_zero_or_pos j with h0 | h0
    · subst h0; exact absurd hj (lt_irrefl _)
    · exact h0
  refine ⟨r, hr, ?_⟩
  rcases hor with h0 | ⟨h1, h2, h3⟩
  · left
    refine ⟨h0, ?_⟩
    intro j hjl hjc
    by_contra hjS
    have := hall j (hne j hjc) hjl hjS
    rw [h0] at this
    exact absurd hjc (not_lt.2 this)
  · right
    refine ⟨hlt, h3, h2, ?_⟩
    intro j hjl hjc hjS hjr
    have hle := hall j (hne j hjc) hjl hjS
    rcases lt_or_eq_of_le hle with h | h
    · exact Or.inl h
    · right
      refine ⟨h, ?_⟩
      by_contra hnlt
      have hjr' : j < r := by omega
      have := hfirst.2 j (mem_scanRange.2 ⟨hne j hjc, hjl⟩) hjS hjr'
      rw [h] at this
      exact absurd this (lt_irrefl _)

/-- The picked positions of `getSmallest`: first distinct positions below the
start cost, in the order of picking, as many as there are or as asked for;
then position 0 in every further round. -/
theorem getSmallestIndexes_shape (g : List trip) (hg : g ≠ []) (k : Nat) :
    ∃ bs, getSmallestIndexes g k =
        some (bs ++ List.replicate (k - min k (belowStart g)) 0) ∧
      bs.length = min k (belowStart g) ∧ bs.Nodup ∧
      (∀ b ∈ bs, b < g.length ∧ costAt g b < costAt g 0) ∧
      bs.Pairwise (costBefore g) := by
  obtain ⟨picks, hp, ⟨bs, z, hS, hnd, hb, hpw, hsm, hex⟩, hlen, _⟩ :=
    selectLoop_invariant g hg
      (fun S => ∃ bs z, S = bs ++ List.replicate z 0 ∧ bs.Nodup ∧
        (∀ b ∈ bs, b < g.length ∧ costAt g b < costAt g 0) ∧
        bs.Pairwise (costBefore g) ∧
        (∀ b ∈ bs, ∀ j, j < g.length → costAt g j < costAt g 0 → j ∉ bs →
          costBefore g b j) ∧
        (0 < z → ∀ j, j < g.length → costAt g j < costAt g 0 → j ∈ bs))
      (fun S r hS hr => by
        obtain ⟨bs, z, hSe, hnd, hb, hpw, hsm, hex⟩ := hS
        obtain ⟨r', hr', hcase⟩ := scanSmallest_round_cases g hg S
        rw [hr] at hr'
        have hrr : r' = r := (Option.some.inj hr').symm
        subst hrr
        have hmemS : ∀ j, costAt g j < costAt g 0 → j ∈ S → j ∈ bs := by
          intro j hjc hj
          rw [hSe] at hj
          rcases List.mem_append.1 hj with h | h
          · exact h
          · have := List.eq_of_mem_replicate h
            subst this
            exact absurd hjc (lt_irrefl _)
        rcases hcase with ⟨h0, hall⟩ | ⟨hlt, hc, hnS, hmin⟩
        · refine ⟨bs, z + 1, ?_, hnd, hb, hpw, hsm, ?_⟩
          · rw [hSe, h0, List.append_assoc, List.replicate_succ']
          · intro _ j hjl hjc
            exact hmemS j hjc (hall j hjl hjc)
        · have hrbs : r' ∉ bs := fun h => hnS (by rw [hSe]; exact List.mem_append_left _ h)
          have hz : z = 0 := by
            by_contra hz
            exact hrbs (hex (Nat.pos_of_ne_zero hz) r' hlt hc)
          subst hz
          have hSbs : S = bs := by rw [hSe]; simp
          refine ⟨bs ++ [r'], 0, by rw [hSbs]; simp, ?_, ?_, ?_, ?_, ?_⟩
          · rw [List.nodup_append]
            refine ⟨hnd, List.nodup_singleton _, ?_⟩
            intro a ha ha'
            rw [List.mem_singleton] at ha'
            subst ha'
            exact hrbs ha
          · intro b hbm
            rcases List.mem_append.1 hbm with h | h
            · exact hb b h
            · rw [List.mem_singleton] at h; subst h; exact ⟨hlt, hc⟩
          · rw [List.pairwise_append]
            refine ⟨hpw, List.pairwise_singleton _ _, ?_⟩
            intro a ha b hbm
            rw [List.mem_singleton] at hbm
            subst hbm
            exact hsm a ha b hlt hc hrbs
          · intro b hbm j hjl hjc hjn
            have hjbs : j ∉ bs := fun h => hjn (List.mem_append_left _ h)
            rcases List.mem_append.1 hbm with h | h
            · exact hsm b h j hjl hjc hjbs
            · rw [List.mem_singleton] at h
              subst h
              have hjb : j ≠ b := fun h => hjn (by rw [h]; simp)
              exact hmin j hjl hjc (by rw [hSbs]; exact hjbs) hjb
          · intro h; exact absurd h (lt_irrefl _))
      k [] ⟨[], 0, by simp, List.nodup_nil, by simp, List.Pairwise.nil, by simp, by simp⟩
  have hk : bs.length + z = k := by
    have := hlen
    rw [hS, List.length_append, List.length_replicate] at this
    simpa using this
  have hq1 : bs.length ≤ belowStart g := length_le_belowStart g bs hnd hb
  have hq2 : 0 < z → belowStart g ≤ bs.length := fun hz => belowStart_le_length g bs (hex hz)
  have hmin : bs.length = min k (belowStart g) := by
    rcases Nat.eq_zero_or_pos z with h0 | h0
    · rw [Nat.min_def]; split_ifs <;> omega
    · have := hq2 h0
      rw [Nat.min_def]; split_ifs <;> omega
  have hz : z = k - min k (belowStart g) := by omega
  refine ⟨bs, ?_, hmin, hnd, hb, hpw⟩
  unfold getSmallestIndexes
  rw [hp, hS, hz]

/-- C16: on a non-empty population, with `m = belowStart` the number of
positions of cost strictly below the cost at position 0, the first
`min(k, m)` picks of `getSmallest(population, k)` are pairwise distinct
positions of cost strictly below the cost at position 0, picked in
non-decreasing cost order with the lower position first on ties; every later
pick is position 0; so the picks repeat a position exactly when `k >= m + 2`,
and no position of cost at least the cost at position 0 is picked other than
position 0. -/
theorem C16_getSmallest_picks_shape (g : List trip) (k : Nat) (hg : g ≠ []) :
    ∃ picks, getSmallestIndexes g k = some picks ∧ picks.length = k ∧
      (picks.take (min k (belowStart g))).Nodup ∧
      (∀ p ∈ picks.take (min k (belowStart g)),
        p < g.length ∧ costAt g p < costAt g 0) ∧
      (picks.take (min k (belowStart g))).Pairwise (costBefore g) ∧
      (∀ t : Nat, belowStart g ≤ t → t < k → picks[t]? = some 0) ∧
      (¬ picks.Nodup ↔ belowStart g + 2 ≤ k) ∧
      (∀ p ∈ picks, p = 0 ∨ costAt g p < costAt g 0) := by
  obtain ⟨bs, hp, hlen, hnd, hb, hpw⟩ := getSmallestIndexes_shape g hg k
  have hmk : min k (belowStart g) ≤ k := Nat.min_le_left _ _
  have hmm : min k (belowStart g) ≤ belowStart g := Nat.min_le_right _ _
  have htake : (bs ++ List.replicate (k - min k (belowStart g)) 0).take
      (min k (belowStart g)) = bs := List.take_left' hlen
  have h0 : (0 : Nat) ∉ bs := fun h => absurd (hb 0 h).2 (lt_irrefl _)
  refine ⟨_, hp, ?_, ?_, ?_, ?_, ?_, ?_, ?_⟩
  · rw [List.length_append, List.length_replicate, hlen]; omega
  · rw [htake]; exact hnd
  · rw [htake]; exact hb
  · rw [htake]; exact hpw
  · intro t ht1 ht2
    rw [List.getElem?_append_right (by omega), List.getElem?_replicate]
    rw [if_pos (by omega)]
  · rw [List.nodup_append, List.nodup_replicate]
    constructor
    · intro h
      by_contra hk
      apply h
      refine ⟨hnd, by omega, ?_⟩
      intro a ha ha'
      have := List.eq_of_mem_replicate ha'
      subst this
      exact h0 ha
    · intro hk h
      have := h.2.1
      rw [Nat.min_def] at this
      split_ifs at this <;> omega
  · intro p hpm
    rcases List.mem_append.1 hpm with h | h
    · exact Or.inr (hb p h).2
    · exact Or.inl (List.eq_of_mem_replicate h)

/-- C16 at the population `ACB (13), ABC (11), BCA (14), CBA (10)` with
`k = 4`: two positions cost less than position 0, and the picks are
`3, 1, 0, 0`. -/
theorem C16_getSmallest_picks_shape_witness :
    belowStart [tripACB, tripABC, tripBCA, tripCBA] = 2 ∧
    getSmallestIndexes [tripACB, tripABC, tripBCA, tripCBA] 4 = some [3, 1, 0, 0] ∧
    ∃ picks, getSmallestIndexes [tripACB, tripABC, tripBCA, tripCBA] 4 = some picks ∧
      picks.length = 4 ∧
      (∀ t : Nat, belowStart [tripACB, tripABC, tripBCA, tripCBA] ≤ t → t < 4 →
        picks[t]? = some 0) ∧
      (¬ picks.Nodup ↔ belowStart [tripACB, tripABC, tripBCA, tripCBA] + 2 ≤ 4) :=
  ⟨by decide, by decide,
    match C16_getSmallest_picks_shape [tripACB, tripABC, tripBCA, tripCBA] 4 (by decide) with
    | ⟨picks, h1, h2, _, _, _, h3, h4, _⟩ => ⟨picks, h1, h2, h3, h4⟩⟩

/-! ## The best of the elites -/

/-- The costs of the trips that `getGenerationIndexes` reads are the costs at
the positions read. -/
theorem getGenerationIndexes_costs (g : List trip) (idx : List Nat) (r : List trip)
    (hlt : ∀ p ∈ idx, p < g.length) (h : getGenerationIndexes g idx = some r) :
    r.map trip.totalDistance = idx.map (costAt g) := by
  obtain ⟨r', hr', _, hget, _⟩ := getGenerationIndexes_spec g idx hlt
  rw [h] at hr'
  have hrr : r = r' := Option.some.inj hr'
  subst hrr
  apply List.ext_getElem?
  intro t
  rw [List.getElem?_map, List.getElem?_map, hget t]
  cases hi : idx[t]? with
  | none => rfl
  | some p =>
    have hp : p < g.length := hlt p (List.getElem?_mem hi)
    have e : g[p]? = some g[p] := List.getElem?_eq_getElem hp
    simp only [Option.some_bind, e, Option.map_some', costAt_of_getElem? e]

/-- C18: on a non-empty population with `k >= 1`, the costs of
`getSmallest(population, k)` are in non-decreasing order, its first trip is
the first trip of minimal cost of the population, and
`getSmallest(getSmallest(population, k), 1) = getSmallest(population, 1)`. -/
theorem C18_best_of_elites_is_best (g : List trip) (k : Nat) (hg : g ≠ []) (hk : 1 ≤ k) :
    ∃ elites, getSmallest g k = some elites ∧
      getSmallest elites 1 = getSmallest g 1 ∧
      (elites.map trip.totalDistance).Pairwise (fun a b => a ≤ b) ∧
      ∃ b, getSmallest g 1 = some [b] ∧ elites[0]? = some b := by
  obtain ⟨n, hn⟩ : ∃ n, k = n + 1 := ⟨k - 1, by omega⟩
  subst hn
  obtain ⟨elites, b, he, _, hmem, hbest, h0⟩ := getSmallest_head g hg n
  obtain ⟨i0, t0, _, _, hs0, _, _⟩ := getSmallest_one g hg
  have hbt : t0 = b := by
    have : bestTrip g = some t0 := by simp [bestTrip, hs0]
    rw [hbest] at this
    exact (Option.some.inj this).symm
  subst hbt
  obtain ⟨b', hb', _, hmin⟩ := bestTrip_spec g hg
  rw [hbest] at hb'
  have hbb : t0 = b' := Option.some.inj hb'
  subst hbb
  have hne : elites ≠ [] := List.ne_nil_of_mem (List.getElem?_mem h0)
  obtain ⟨i, t, hi, _, hs, _, hfirst⟩ := getSmallest_one elites hne
  have hi0 : i = 0 := by
    by_contra hpos
    have hlt := hfirst 0 (Nat.pos_of_ne_zero hpos)
    rw [costAt_of_getElem? hi, costAt_of_getElem? h0] at hlt
    exact absurd hlt (not_lt.2 (hmin t (hmem t (List.getElem?_mem hi))))
  subst hi0
  have htb : t = t0 := by
    rw [h0] at hi; exact (Option.some.inj hi).symm
  subst htb
  refine ⟨elites, he, by rw [hs, hs0], ?_, t, hs0, h0⟩
  obtain ⟨bs, hp, _, _, hb, hpw⟩ := getSmallestIndexes_shape g hg (n + 1)
  have hlt : ∀ p ∈ bs ++ List.replicate (n + 1 - min (n + 1) (belowStart g)) 0,
      p < g.length := by
    intro p hpm
    rcases List.mem_append.1 hpm with h | h
    · exact (hb p h).1
    · rw [List.eq_of_mem_replicate h]; exact List.length_pos.2 hg
  have hgi : getGenerationIndexes g
      (bs ++ List.replicate (n + 1 - min (n + 1) (belowStart g)) 0) = some elites := by
    have := he
    unfold getSmallest at this
    rw [hp] at this
    exact this
  rw [getGenerationIndexes_costs g _ elites hlt hgi, List.pairwise_map,
    List.pairwise_append]
  refine ⟨?_, ?_, ?_⟩
  · refine hpw.imp ?_
    intro a c hac
    rcases hac with h | h
    · exact le_of_lt h
    · exact le_of_eq h.1
  · rw [List.pairwise_replicate]
    exact Or.inr (le_refl _)
  · intro a ha c hc
    rw [List.eq_of_mem_replicate hc]
    exact le_of_lt (hb a ha).2

/-- C18 at the population `ACB (13), ABC (11), BCA (14), CBA (10)` with
`k = 3`: the elites are `CBA, ABC, ACB`. -/
theorem C18_best_of_elites_is_best_witness :
    getSmallest [tripACB, tripABC, tripBCA, tripCBA] 3 = some [tripCBA, tripABC, tripACB] ∧
    ∃ elites, getSmallest [tripACB, tripABC, tripBCA, tripCBA] 3 = some elites ∧
      getSmallest elites 1 = getSmallest [tripACB, tripABC, tripBCA, tripCBA] 1 ∧
      (elites.map trip.totalDistance).Pairwise (fun a b => a ≤ b) ∧
      ∃ b, getSmallest [tripACB, tripABC, tripBCA, tripCBA] 1 = some [b] ∧
        elites[0]? = some b :=
  ⟨by decide,
    C18_best_of_elites_is_best [tripACB, tripABC, tripBCA, tripCBA] 3 (by decide)
      (by decide)⟩

end TravellingGopher
